import Mathlib

/-!
Verification of the Active-H-EMV maintenance/editing core.

This file shallowly embeds the parts of the repository that the checked
properties talk about:

* `active_hemv/memory/forgetting_policy.py` — threshold policy;
* `active_hemv/memory/utility_scorer.py` — utility scoring (the external
  embedding encoder and the exponential decay are abstracted as parameters,
  exactly at the collaborator boundary);
* `active_hemv/agents/memory_gardener.py` — the store-level eviction cycle
  (L0/L1 processing, L2/L3 consolidation, node merging);
* `active_hemv/agents/forgetting_agent.py` — the tree-level eviction cycle
  (per-node loop body, subtree merge/delete);
* `active_hemv/memory/editing_engine.py` and
  `active_hemv/agents/correction_agent.py` — error-source location,
  correction application and upward propagation.

Python floats are modelled as rationals (ℚ); Python dicts holding node
records become Lean structures whose optional keys become `Option` fields,
read with the same defaults the Python code passes to `.get`/`getattr`.
The `em.em_tree` node classes are imported by the agents but are not part
of the provided sources; their shape (a rose tree of nodes carrying a
summary, a utility score, a lock flag and raw-payload slots) is modelled
from the spec's data model (§3) and from how the agents access them.
-/

/-! ### ForgettingPolicy (`memory/forgetting_policy.py`) -/

/-- The `ForgettingAction` literal type of `forgetting_policy.py`
(it declares five actions, including `forget_raw`). -/
inductive FAction where
  | keep_all
  | downgrade
  | forget_raw
  | text_only
  | merge_or_delete
deriving DecidableEq, Repr

/-- Threshold triple of `ForgettingPolicy.__init__`. -/
structure PolicyThresholds where
  high : ℚ
  med : ℚ
  low : ℚ
deriving DecidableEq, Repr

/-- Default thresholds (0.7 / 0.4 / 0.2). -/
def defaultThresholds : PolicyThresholds := ⟨7/10, 2/5, 1/5⟩

/-- Model of `ForgettingPolicy.apply`: the if/elif cascade mapping a utility score
to an action. -/
def policyApply (p : PolicyThresholds) (u : ℚ) : FAction :=
  if u ≥ p.high then .keep_all
  else if u ≥ p.med then .downgrade
  else if u ≥ p.low then .text_only
  else .merge_or_delete

/-- Destructiveness rank of an action under the spec ordering
`keep_all ≺ downgrade ≺ text_only ≺ merge_or_delete`.
`forget_raw` is never returned by `policyApply` (proved below); it is
ranked between `downgrade` and `text_only` as in the policy docstring. -/
def destructiveness : FAction → Nat
  | .keep_all => 0
  | .downgrade => 1
  | .forget_raw => 2
  | .text_only => 3
  | .merge_or_delete => 4

/-- The spec's ordered threshold mapping, written from §4.2's words:
`utility ≥ high → keep_all; med ≤ utility < high → downgrade;
low ≤ utility < med → text_only; utility < low → merge_or_delete`. -/
def specDecide (p : PolicyThresholds) (u : ℚ) : FAction :=
  if p.high ≤ u then .keep_all
  else if p.med ≤ u ∧ u < p.high then .downgrade
  else if p.low ≤ u ∧ u < p.med then .text_only
  else .merge_or_delete

/-! ### UtilityScorer (`memory/utility_scorer.py`) -/

/-- Substring test used to model Python's `kw in text`:
`sub` occurs contiguously in `s`. -/
def strContainsSub (s sub : String) : Bool :=
  s.data.tails.any (sub.data.isPrefixOf ·)

/-- High-salience keywords of `_heuristic_salience`. -/
def highKeywords : List String :=
  ["failed", "error", "失败", "错误", "异常", "摔倒", "碰撞"]

/-- Medium-high-salience keywords of `_heuristic_salience`. -/
def mediumHighKeywords : List String :=
  ["completed", "完成", "达成", "成功", "first time", "第一次"]

/-- Medium-salience keywords of `_heuristic_salience`. -/
def mediumKeywords : List String :=
  ["grasp", "抓取", "移动", "放置", "pick", "place"]

/-- Model of `UtilityScorer._heuristic_salience`: keyword-bucketed fallback.
Python lowercases the text first; the model takes the text as already
lowercased (the claims below use lowercase inputs). -/
def heuristicSalience (text : String) : ℚ :=
  if highKeywords.any (fun kw => strContainsSub text kw) then 9/10
  else if mediumHighKeywords.any (fun kw => strContainsSub text kw) then 7/10
  else if mediumKeywords.any (fun kw => strContainsSub text kw) then 1/2
  else 3/10

/-- Model of `UtilityScorer._compute_access_frequency`. The exponential decay
`exp(-λ·Δdays)` is transcendental; it is abstracted as the parameter
`decayAt`, applied to the day difference, exactly as the code applies
`np.exp(-self.lambda_decay * delta_days)`. A node never accessed
(`access_count == 0`) gets the fixed floor 0.1 before any decay is used. -/
def computeAccess (decayAt : ℤ → ℚ) (accessCount : ℕ) (deltaDays : ℤ) : ℚ :=
  if accessCount = 0 then 1/10
  else decayAt deltaDays * min ((accessCount : ℚ) / 100) 1

/-- Normalized scorer weights (`UtilityScorer.__init__` divides by the sum). -/
structure ScorerWeights where
  alpha : ℚ
  beta : ℚ
  gamma : ℚ
deriving Repr

/-- Weight normalization performed in `UtilityScorer.__init__`. -/
def normalizeWeights (w : ScorerWeights) : ScorerWeights :=
  let t := w.alpha + w.beta + w.gamma
  ⟨w.alpha / t, w.beta / t, w.gamma / t⟩

/-- Model of `np.clip(x, 0, 1)`. -/
def clip01 (x : ℚ) : ℚ := min (max x 0) 1

/-- Model of `UtilityScorer.compute` with the three components already resolved:
`A` from `_compute_access_frequency`, `S` the salience (cached value if the
node carries `salience_score`, else the heuristic on its summary — no LLM
is passed in the cycles modelled here), and the information density `I`
(which in the code needs the external sentence encoder and a real-valued
cosine; it is abstracted as the parameter `density`). -/
def scorerCompute (w : ScorerWeights) (decayAt : ℤ → ℚ)
    (accessCount : ℕ) (deltaDays : ℤ)
    (salienceCache : Option ℚ) (summaryLower : String)
    (density : ℚ) : ℚ :=
  let nw := normalizeWeights w
  let A := computeAccess decayAt accessCount deltaDays
  let S := salienceCache.getD (heuristicSalience summaryLower)
  clip01 (nw.alpha * A + nw.beta * S + nw.gamma * density)

/-- The default weight triple (0.5, 0.3, 0.2). -/
def defaultWeights : ScorerWeights := ⟨1/2, 3/10, 1/5⟩

/-! ### Memory-gardener store records (`agents/memory_gardener.py`)

The gardener works on vector-store node dicts. A record is modelled as a
structure; the `has_raw_data` key may be absent from a record (a freshly
merged node is inserted without it), so it is an `Option` read with the
defaults the Python code uses. -/

/-- A vector-store node record as read and written by
`MemoryGardenerAgent` (dict keys `node_id`, `level`, `nl_summary`,
`timestamp_start`, `timestamp_end`, `utility_score`, `is_locked`,
`has_raw_data`, `merged_from`). -/
structure GNode where
  node_id : String
  level : String
  nl_summary : String
  timestamp_start : ℤ
  timestamp_end : ℤ
  utility_score : ℚ
  is_locked : Bool
  has_raw_data : Option Bool
  merged_from : List String
deriving DecidableEq, Repr

/-- One iteration of the loop in
`MemoryGardenerAgent._process_raw_and_scene_level`: locked nodes are
skipped entirely; otherwise the utility is computed (the scorer is the
abstract parameter `score`), the policy action is taken, only the
`forget_raw` action marks the raw payload gone
(`vector_store.update(node_id, {"has_raw_data": False})`), `downgrade`
calls `_downgrade_storage`, which performs no record mutation, and
finally `_update_utility_score` writes the computed utility back. -/
def rawSceneStep (p : PolicyThresholds) (score : GNode → ℚ) (n : GNode) : GNode :=
  if n.is_locked then n
  else
    let u := score n
    let action := policyApply p u
    let n1 := if action = FAction.forget_raw then { n with has_raw_data := some false } else n
    { n1 with utility_score := u }

/-- Model of `MemoryGardenerAgent._process_raw_and_scene_level`: the per-node pass
over the L0/L1 records together with the `forgotten`/`downgraded`
counters it returns. -/
def processRawScene (p : PolicyThresholds) (score : GNode → ℚ) (nodes : List GNode) :
    List GNode × ℕ × ℕ :=
  (nodes.map (rawSceneStep p score),
   (nodes.countP fun n => !n.is_locked && decide (policyApply p (score n) = FAction.forget_raw)),
   (nodes.countP fun n => !n.is_locked && decide (policyApply p (score n) = FAction.downgrade)))

/-- Model of `MemoryGardenerAgent._llm_merge`: despite its name it never calls an
LLM — up to three summaries are pipe-concatenated, more than three
produce a fixed count phrase (the LLM call is a `TODO` in the source). -/
def llmMerge (summaries : List String) : String :=
  if summaries.isEmpty then "Empty merged summary"
  else if summaries.length ≤ 3 then String.intercalate " | " summaries
  else "合并了" ++ toString summaries.length ++ "个相关事件"

/-- The synthetic record inserted by `MemoryGardenerAgent._merge_nodes`
for the nonempty run `n0 :: rest` (the Python code is only reached with
at least two nodes). The store id is time-derived in Python and is taken
here as the parameter `newId`; the inserted dict carries no
`has_raw_data` key. -/
def mkMergedNode (newId : String) (n0 : GNode) (rest : List GNode) : GNode where
  node_id := newId
  level := n0.level
  nl_summary := llmMerge ((n0 :: rest).map (·.nl_summary))
  timestamp_start := rest.foldl (fun m n => min m n.timestamp_start) n0.timestamp_start
  timestamp_end := rest.foldl (fun m n => max m n.timestamp_end) n0.timestamp_end
  utility_score := mkRat 2 5
  is_locked := false
  has_raw_data := none
  merged_from := (n0 :: rest).map (·.node_id)

/-- The sort key relation of
`nodes_with_utility.sort(key=lambda x: x[0]["timestamp_start"])`. -/
def tsLe (a b : GNode × ℚ) : Prop := a.1.timestamp_start ≤ b.1.timestamp_start

instance : DecidableRel tsLe := fun _ _ => Int.decLe _ _

instance : IsTotal (GNode × ℚ) tsLe := ⟨fun _ _ => Int.le_total _ _⟩

instance : IsTrans (GNode × ℚ) tsLe := ⟨fun _ _ _ => Int.le_trans⟩

/-- The scan loop of `MemoryGardenerAgent._process_event_and_goal_level`:
walk the (sorted) candidates; at a below-`low` candidate collect the run
of consecutive below-`low` candidates starting there, emit it when it has
at least two members, and resume right after it. -/
def mergeScan (low : ℚ) : List (GNode × ℚ) → List (List (GNode × ℚ))
  | [] => []
  | x :: xs =>
    if x.2 < low then
      let run := x :: xs.takeWhile (fun y => decide (y.2 < low))
      let rest := xs.dropWhile (fun y => decide (y.2 < low))
      (if 2 ≤ run.length then [run] else []) ++ mergeScan low rest
    else mergeScan low xs
termination_by l => l.length
decreasing_by
  · exact Nat.lt_succ_of_le (List.dropWhile_sublist _).length_le
  · exact Nat.lt_succ_self _

/-- Model of `MemoryGardenerAgent._process_event_and_goal_level`: filter out locked
nodes, score the rest (`score` abstracts the utility scorer), sort by
`timestamp_start` (Python's stable sort, modelled by insertion sort, which
is likewise stable), scan for runs, and perform every `_merge_nodes` call:
the result is the list of inserted synthetic records, the ids deleted from
the store, and the `merged` counter. -/
def processEventGoal (p : PolicyThresholds) (score : GNode → ℚ) (newId : ℕ → String)
    (nodes : List GNode) : List GNode × List String × ℕ :=
  let cands := (nodes.filter (fun n => !n.is_locked)).map (fun n => (n, score n))
  let sorted := cands.insertionSort tsLe
  let runs := mergeScan p.low sorted
  (runs.enum.filterMap (fun ir =>
      match ir.2 with
      | [] => none
      | x :: xs => some (mkMergedNode (newId ir.1) x.1 (xs.map (·.1)))),
   (runs.map (fun r => r.map (·.1.node_id))).flatten,
   (runs.map List.length).sum)

/-- Spec-side notion for §4.3 mid bands: `run` is a maximal run of
contiguous candidates of `l` all scoring below `low` (nonempty, all
members below `low`, and not extendable on either side). -/
def IsMaximalLowRun (low : ℚ) (l run : List (GNode × ℚ)) : Prop :=
  run ≠ [] ∧ (∀ x ∈ run, x.2 < low) ∧
  ∃ pre post, l = pre ++ run ++ post ∧
    (∀ x, pre.getLast? = some x → ¬ x.2 < low) ∧
    (∀ x, post.head? = some x → ¬ x.2 < low)

/-! ### EditingEngine error-source location (`memory/editing_engine.py`) -/

/-- Python's `str.lower()`, character by character (ASCII case folding;
the texts the engine handles are ASCII or Chinese, where the two agree). -/
def pyLower (s : String) : String := String.mk (s.data.map Char.toLower)

/-- Worker for `str.split()`: `cur` is the (reversed) word in progress. -/
def wordsAux : List Char → List Char → List String
  | [], cur => if cur.isEmpty then [] else [String.mk cur.reverse]
  | c :: cs, cur =>
    if c.isWhitespace then
      (if cur.isEmpty then wordsAux cs [] else String.mk cur.reverse :: wordsAux cs [])
    else wordsAux cs (c :: cur)

/-- Python's `str.split()`: split on whitespace runs, dropping empty
pieces. -/
def pyWords (s : String) : List String := wordsAux s.data []

/-- A keyword set as built by `_semantic_match_error`:
`set(text.lower().split())`, modelled as a duplicate-free word list. -/
def keywordSet (s : String) : List String :=
  (pyWords (pyLower s)).dedup

/-- Model of `len(setA & setB)` for keyword sets (`a` duplicate-free). -/
def overlapCount (a b : List String) : ℕ :=
  (a.filter (b.contains ·)).length

/-- Suspicion score of one candidate in `_semantic_match_error`:
overlap with the original answer minus half the overlap with the user
correction. -/
def suspicionScore (origKws corrKws : List String) (n : GNode) : ℚ :=
  let sumKws := keywordSet n.nl_summary
  (overlapCount origKws sumKws : ℚ) - (overlapCount corrKws sumKws : ℚ) * mkRat 1 2

/-- The best-candidate fold of `_semantic_match_error`
(`best_score` starts at −1; a candidate replaces the best only on a
strictly larger score, so the earliest maximum wins). -/
def bestCandidate (sc : GNode → ℚ) (cands : List GNode) : Option GNode × ℚ :=
  cands.foldl (fun acc c => if acc.2 < sc c then (some c, sc c) else acc) (none, -1)

/-- Model of `EditingEngine._semantic_match_error`: the best-scoring candidate when
its score is strictly positive, otherwise `None`. -/
def semanticMatchError (original correction : String) (cands : List GNode) : Option GNode :=
  let origKws := keywordSet original
  let corrKws := keywordSet correction
  let (best, bestScore) := bestCandidate (suspicionScore origKws corrKws) cands
  if 0 < bestScore then best else none

/-- Model of `EditingEngine.locate_error_source` in the configuration the claims
address (vector store available, no graph store, so the L1 expansion step
keeps the candidates unchanged): look each retrieved id up in the store,
return `None` when nothing resolves, else run the semantic match. -/
def locateErrorSource (store : List GNode) (retrievedIds : List String)
    (original correction : String) : Option GNode :=
  let cands := retrievedIds.filterMap (fun i => store.find? (fun n => n.node_id == i))
  if cands.isEmpty then none
  else semanticMatchError original correction cands

/-! ### Correction history (`agents/correction_agent.py`,
`agents/correction_agent_enhanced.py`)

A correction record; `CorrectionAgent._correct_memory` appends
`{timestamp, original, correction, corrected_summary}` and
`CorrectionAgentEnhanced._add_correction_history` appends
`{timestamp, correction, method, ...}`, so the shared model keeps the
`correction` field and makes the rest optional (the wall-clock timestamp
is not modelled). -/
structure CRec where
  correction : String
  original : Option String
  corrected_summary : Option String
  method : Option String
deriving DecidableEq, Repr

/-- The history-trimming step of `CorrectionAgent._correct_memory`:
`history[-max:]` when the length exceeds the configured maximum. -/
def trimHistory (maxLen : ℕ) (h : List CRec) : List CRec :=
  if maxLen < h.length then h.drop (h.length - maxLen) else h

/-- Append a record and trim, as `CorrectionAgent._correct_memory` does. -/
def appendTrimmed (maxLen : ℕ) (h : List CRec) (r : CRec) : List CRec :=
  trimHistory maxLen (h ++ [r])

/-- Model of `CorrectionAgentEnhanced._add_correction_history`: an unbounded
append. -/
def enhancedAppend (h : List CRec) (r : CRec) : List CRec := h ++ [r]

/-! ### The `em.em_tree` memory tree and the tree-level agents

Modelled from the spec: the `em.em_tree` module (node classes
`RawDataInstant`, `SceneGraphInstant`, `EventBasedSummary`,
`GoalBasedSummary`, `HigherLevelSummary`) is imported by
`forgetting_agent.py` and `correction_agent.py` but its source is not
among the provided files. Following the spec's data model (§3) and the
attribute accesses in the agents, a node carries a natural-language
summary, an optional utility score, a lock flag, optional raw-payload
slots (`raw.image`, `raw.sound`), optional scene-graph detail fields
(`objects`, `relations`), an optional `compressed` flag and an optional
correction history; children are held in per-class list attributes
(`previous_summaries` / `events` / `scenes`), modelled as one child
forest. `Option` encodes attribute presence, read with the defaults the
agents pass to `getattr`. -/

/-- The raw-payload slot `node.raw`: whether an image / a sound payload is
attached, and the `_data_forgotten` mark. -/
structure RawSlot where
  image : Bool
  sound : Bool
  forgotten : Bool
deriving DecidableEq, Repr

/-- The node class, determining the level in
`ForgettingAgent._get_node_level`. -/
inductive NKind where
  | raw
  | scene
  | event
  | goal
  | higher
deriving DecidableEq, Repr

/-- The attribute record of one memory-tree node. -/
structure NData where
  id : ℕ
  kind : NKind
  nl_summary : String
  utility_score : Option ℚ
  is_locked : Bool
  raw : Option RawSlot
  objs : Option (List String)
  rels : Option (List String)
  compressed : Option Bool
  correction_history : Option (List CRec)
  corrected : Bool
deriving DecidableEq, Repr

mutual
/-- A memory-tree node with its children. -/
inductive MTree where
  | node (data : NData) (children : MForest)

/-- A list of sibling subtrees. -/
inductive MForest where
  | nil
  | cons (hd : MTree) (tl : MForest)
end

deriving instance DecidableEq for MTree
deriving instance DecidableEq for MForest

/-- The attribute record at the root of a subtree. -/
def MTree.data : MTree → NData
  | .node d _ => d

/-- The children of the root of a subtree. -/
def MTree.children : MTree → MForest
  | .node _ c => c

/-- The root node's id. -/
def MTree.rootId (t : MTree) : ℕ := t.data.id

/-- View a forest as a list of subtrees. -/
def MForest.toList : MForest → List MTree
  | .nil => []
  | .cons h t => h :: t.toList

/-- Build a forest from a list of subtrees. -/
def listToForest : List MTree → MForest
  | [] => .nil
  | h :: t => .cons h (listToForest t)

/-- Number of children in a forest. -/
def MForest.length : MForest → ℕ
  | .nil => 0
  | .cons _ t => 1 + t.length

mutual
/-- All node ids of a subtree, root first, in traversal order. -/
def MTree.subtreeIds : MTree → List ℕ
  | .node d c => d.id :: c.subtreeIds

/-- All node ids of a forest. -/
def MForest.subtreeIds : MForest → List ℕ
  | .nil => []
  | .cons h t => h.subtreeIds ++ t.subtreeIds
end

mutual
/-- All node records of a subtree. -/
def MTree.subtreeData : MTree → List NData
  | .node d c => d :: c.subtreeData

/-- All node records of a forest. -/
def MForest.subtreeData : MForest → List NData
  | .nil => []
  | .cons h t => h.subtreeData ++ t.subtreeData
end

mutual
/-- Model of `ForgettingAgent._get_node_level`: levels 0–3 by class; a
`HigherLevelSummary` with children is one above its highest child, or 3
when childless. -/
def MTree.level : MTree → ℕ
  | .node d c =>
    match d.kind with
    | .raw => 0
    | .scene => 1
    | .event => 2
    | .goal => 3
    | .higher =>
      match c with
      | .nil => 3
      | .cons h t => 1 + MForest.maxLevel (.cons h t)

/-- Maximum level over a forest (0 on the empty forest, which
`MTree.level` never consults). -/
def MForest.maxLevel : MForest → ℕ
  | .nil => 0
  | .cons h t => max h.level t.maxLevel
end

/-- Model of `ForgettingAgent._forget_raw_data`: clear the image and sound slots
when a `raw` attribute exists, add an estimated 0.9 MB for a present
image and 0.5 MB for present audio, and set the `_data_forgotten` mark.
Returns the updated record and the MB counted as freed. -/
def forgetRawData (d : NData) : NData × ℚ :=
  match d.raw with
  | none => (d, 0)
  | some r =>
    let f : ℚ := (if r.image then mkRat 9 10 else 0) + (if r.sound then mkRat 1 2 else 0)
    ({ d with raw := some ⟨false, false, true⟩ }, f)

/-- Model of `ForgettingAgent._text_only`: forget the raw payload, then empty the
`objects` (+0.1 MB) and `relations` (+0.05 MB) detail fields when those
attributes exist. -/
def textOnly (d : NData) : NData × ℚ :=
  let (d1, f1) := forgetRawData d
  let (d2, f2) :=
    match d1.objs with
    | some _ => ({ d1 with objs := some [] }, f1 + mkRat 1 10)
    | none => (d1, f1)
  match d2.rels with
  | some _ => ({ d2 with rels := some [] }, f2 + mkRat 1 20)
  | none => (d2, f2)

/-- Model of `ForgettingAgent._compress_node`: set the `compressed` flag when the
attribute exists; always report 0.5 MB saved. -/
def compressNode (d : NData) : NData × ℚ :=
  (match d.compressed with
   | some _ => { d with compressed := some true }
   | none => d,
   mkRat 1 2)

/-- The child utility read in `_merge_or_delete_node`:
`_node_to_dict` uses `getattr(node, 'utility_score', 0.5)`. -/
def childUtility (t : MTree) : ℚ := t.data.utility_score.getD (mkRat 1 2)

mutual
/-- Model of `ForgettingAgent._delete_subtree`: recursively run `_text_only` over
every node of the subtree (children first). No node is unlinked — the
structure survives with its payloads cleared. -/
def deleteSubtreeT : MTree → MTree × ℚ
  | .node d c =>
    let (c', f1) := deleteSubtreeF c
    let (d', f2) := textOnly d
    (.node d' c', f1 + f2)

/-- Model of `_delete_subtree` over a forest of children. -/
def deleteSubtreeF : MForest → MForest × ℚ
  | .nil => (.nil, 0)
  | .cons h t =>
    let (h', f1) := deleteSubtreeT h
    let (t', f2) := deleteSubtreeF t
    (.cons h' t', f1 + f2)
end

/-- The summary line formatting of `_merge_children_to_parent`:
`  - {s[:50]}...` for summaries longer than 50 characters, else
`  - {s}`. -/
def mergeLine (s : String) : String :=
  if 50 < s.length then "  - " ++ (String.mk (s.data.take 50)) ++ "..." else "  - " ++ s

mutual
/-- Model of `ForgettingAgent._merge_or_delete_node` on the subtree rooted at the
handled node:

* level ≤ 2 or no children → `_text_only` on the node itself, one node
  counted as deleted (a childless node is at level ≤ 3 by
  `_get_node_level`, and both the leaf branch and the empty-children
  branch of the Python code produce this same result);
* every child's stored utility below `med` → `_delete_subtree`, counting
  `1 +` the number of **direct** children;
* 1–2 children at or above `med` → `_merge_children_to_parent`: clear the
  low children's subtrees, keep only the high children, rewrite the
  parent summary, count the low children;
* more than 2 high children → recurse into each low child (adding 1 per
  low child regardless of the recursion's own count) and set the
  `compressed` flag when present.

Returns the updated subtree, the MB counted as freed and the node count
reported as deleted. -/
def mergeOrDeleteT (med : ℚ) : MTree → MTree × ℚ × ℕ
  | .node d .nil =>
    let (d', f) := textOnly d
    (.node d' .nil, f, 1)
  | .node d (.cons c0 cs) =>
    if (MTree.node d (.cons c0 cs)).level ≤ 2 then
      let (d', f) := textOnly d
      (.node d' (.cons c0 cs), f, 1)
    else
      let kids := (MForest.cons c0 cs).toList
      let high := kids.filter (fun k => decide (med ≤ childUtility k))
      let low := kids.filter (fun k => !decide (med ≤ childUtility k))
      if high.length = 0 then
        let (t', f) := deleteSubtreeT (.node d (.cons c0 cs))
        (t', f, 1 + kids.length)
      else if high.length ≤ 2 then
        let f := (low.map (fun k => (deleteSubtreeT k).2)).sum
        let newSummary :=
          "[合并] " ++ d.nl_summary ++ "\n" ++
            String.intercalate "\n" (high.map (fun c => mergeLine c.data.nl_summary))
        (.node { d with nl_summary := newSummary } (listToForest high), f, low.length)
      else
        let (c', f, n) := mergeLowF med (MForest.cons c0 cs)
        let d' :=
          match d.compressed with
          | some _ => { d with compressed := some true }
          | none => d
        (.node d' c', f, n)

/-- The recursive pass of `_merge_or_delete_node`'s third branch over the
children: low-utility children are processed recursively (each adding
exactly 1 to the deletion count, the recursion's own count being
discarded), high-utility children are left untouched. -/
def mergeLowF (med : ℚ) : MForest → MForest × ℚ × ℕ
  | .nil => (.nil, 0, 0)
  | .cons h rest =>
    let (rest', f2, n2) := mergeLowF med rest
    if med ≤ childUtility h then
      (.cons h rest', f2, n2)
    else
      let (h', f1, _) := mergeOrDeleteT med h
      (.cons h' rest', f1 + f2, 1 + n2)
end

/-- One iteration of the node loop in `ForgettingAgent._forgetting_cycle`,
applied to the subtree rooted at the visited node: compute the utility
(the scorer with its collaborators is the abstract parameter `score`),
store it back **whenever the node has a `utility_score` attribute — there
is no `is_locked` check anywhere in this function** — and dispatch the
policy action. Returns the updated subtree, the MB counted as freed and
the number of nodes counted as forgotten. -/
def forgettingStep (p : PolicyThresholds) (score : NData → ℚ) (t : MTree) : MTree × ℚ × ℕ :=
  let u := score t.data
  let d1 :=
    if (t.data).utility_score.isSome then { t.data with utility_score := some u } else t.data
  let t1 : MTree := .node d1 t.children
  match policyApply p u with
  | .keep_all => (t1, 0, 0)
  | .forget_raw =>
    let (d2, f) := forgetRawData d1
    (.node d2 t1.children, f, 1)
  | .downgrade =>
    let (d2, f) := compressNode d1
    (.node d2 t1.children, f, 0)
  | .text_only =>
    let (d2, f) := textOnly d1
    (.node d2 t1.children, f, 1)
  | .merge_or_delete => mergeOrDeleteT p.med t1

/-- One iteration of the corresponding loop in
`MemoryGardenerAgent._process_raw_and_scene_level` lifted to the same
tree node record, for contrast: the gardener skips locked nodes before
doing anything (`if node.get("is_locked"): continue`). -/
def gardenerStepOnData (p : PolicyThresholds) (score : NData → ℚ) (d : NData) : NData :=
  if d.is_locked then d
  else
    let u := score d
    let d1 :=
      if policyApply p u = FAction.forget_raw then
        { d with raw := (d.raw.map fun r => { r with image := false, sound := false }) }
      else d
    if d1.utility_score.isSome then { d1 with utility_score := some u } else d1

mutual
/-- Model of `CorrectionAgent._propagate_update`'s recursive walk
(`find_and_update_parents`) from a node: returns whether `target` occurs
strictly below this node, and the list of node ids appended to
`affected_nodes` inside this subtree, in append order (Python appends
each strict ancestor right after its own subtree finishes, so nearer
ancestors come first). A child equal to the target short-circuits the
`or`, so the target's own subtree is not searched. -/
def findUpd (target : ℕ) : MTree → Bool × List ℕ
  | .node d c =>
    let (b, l) := findUpdF target c
    (b, l ++ if b then [d.id] else [])

/-- The child loop of `find_and_update_parents`. -/
def findUpdF (target : ℕ) : MForest → Bool × List ℕ
  | .nil => (false, [])
  | .cons h rest =>
    let (b1, l1) := if h.rootId = target then (true, ([] : List ℕ)) else findUpd target h
    let (b2, l2) := findUpdF target rest
    (b1 || b2, l1 ++ l2)
end

mutual
/-- Spec-side ancestor chain (§4.4): the ids of `target`'s ancestors
inside this subtree from its parent up to this subtree's root, nearest
ancestor first — `some []` when `target` is this root itself, `none`
when `target` does not occur in the subtree. -/
def findAnc (target : ℕ) : MTree → Option (List ℕ)
  | .node d c =>
    if d.id = target then some []
    else (findAncF target c).map (fun l => l ++ [d.id])

/-- First child subtree containing `target`, with its ancestor chain. -/
def findAncF (target : ℕ) : MForest → Option (List ℕ)
  | .nil => none
  | .cons h rest =>
    match findAnc target h with
    | some l => some l
    | none => findAncF target rest
end

/-- Model of `CorrectionAgent._correct_memory`, steps 3 of the correction
(lines 204–223): overwrite the summary with the corrected one (the LLM
re-generation is the collaborator-produced parameter
`correctedSummary`), append a `{original, correction, corrected_summary}`
record to the (lazily created) correction history, trim the history to
`maxLen`, and set the `corrected` flag. -/
def correctMemoryApply (maxLen : ℕ) (d : NData) (correctedSummary userCorrection : String) :
    NData :=
  let rec' : CRec :=
    ⟨userCorrection, some d.nl_summary, some correctedSummary, none⟩
  { d with
    nl_summary := correctedSummary,
    correction_history := some (appendTrimmed maxLen (d.correction_history.getD []) rec'),
    corrected := true }

/-- The scored, lock-filtered, time-sorted candidate list built at the
start of `_process_event_and_goal_level`. -/
def gardenCandidates (score : GNode → ℚ) (nodes : List GNode) : List (GNode × ℚ) :=
  ((nodes.filter (fun n => !n.is_locked)).map (fun n => (n, score n))).insertionSort tsLe

/-- A node record is payload-free: any raw slot is cleared and marked
forgotten, any detail-field lists are empty. -/
def PayloadFree (d : NData) : Prop :=
  (∀ r, d.raw = some r → r = ⟨false, false, true⟩) ∧
  (∀ o, d.objs = some o → o = []) ∧
  (∀ rl, d.rels = some rl → rl = [])

/-! ### Supporting lemmas -/

/-- A left fold of `min` over a list is a lower bound of the start value
and every element. -/
theorem foldl_min_le_all (l : List ℤ) (a : ℤ) :
    ∀ x ∈ a :: l, List.foldl min a l ≤ x := by
  induction l generalizing a with
  | nil =>
    intro x hx
    rw [List.mem_singleton] at hx
    subst hx
    simp
  | cons b bs ih =>
    intro x hx
    simp only [List.foldl_cons]
    rw [List.mem_cons, List.mem_cons] at hx
    rcases hx with h1 | h1 | hx
    · rw [h1]
      exact le_trans (ih (min a b) _ (List.mem_cons_self _ _)) (min_le_left a b)
    · rw [h1]
      exact le_trans (ih (min a b) _ (List.mem_cons_self _ _)) (min_le_right a b)
    · exact ih (min a b) x (List.mem_cons_of_mem _ hx)

/-- A left fold of `min` is attained by the start value or an element. -/
theorem foldl_min_mem (l : List ℤ) (a : ℤ) :
    List.foldl min a l ∈ a :: l := by
  induction l generalizing a with
  | nil => simp
  | cons b bs ih =>
    simp only [List.foldl_cons]
    have h := ih (min a b)
    rw [List.mem_cons] at h
    rcases h with h | h
    · rw [h]
      rcases min_choice a b with hm | hm <;> rw [hm]
      · exact List.mem_cons_self _ _
      · exact List.mem_cons_of_mem _ (List.mem_cons_self _ _)
    · exact List.mem_cons_of_mem _ (List.mem_cons_of_mem _ h)

/-- A left fold of `max` over a list is an upper bound of the start value
and every element. -/
theorem foldl_max_ge_all (l : List ℤ) (a : ℤ) :
    ∀ x ∈ a :: l, x ≤ List.foldl max a l := by
  induction l generalizing a with
  | nil =>
    intro x hx
    rw [List.mem_singleton] at hx
    subst hx
    simp
  | cons b bs ih =>
    intro x hx
    simp only [List.foldl_cons]
    rw [List.mem_cons, List.mem_cons] at hx
    rcases hx with h1 | h1 | hx
    · rw [h1]
      exact le_trans (le_max_left a b) (ih (max a b) _ (List.mem_cons_self _ _))
    · rw [h1]
      exact le_trans (le_max_right a b) (ih (max a b) _ (List.mem_cons_self _ _))
    · exact ih (max a b) x (List.mem_cons_of_mem _ hx)

/-- A left fold of `max` is attained by the start value or an element. -/
theorem foldl_max_mem (l : List ℤ) (a : ℤ) :
    List.foldl max a l ∈ a :: l := by
  induction l generalizing a with
  | nil => simp
  | cons b bs ih =>
    simp only [List.foldl_cons]
    have h := ih (max a b)
    rw [List.mem_cons] at h
    rcases h with h | h
    · rw [h]
      rcases max_choice a b with hm | hm <;> rw [hm]
      · exact List.mem_cons_self _ _
      · exact List.mem_cons_of_mem _ (List.mem_cons_self _ _)
    · exact List.mem_cons_of_mem _ (List.mem_cons_of_mem _ h)

/-! ### The claims -/

/-- C5: for every threshold configuration the policy is monotone — a
lower utility never receives a strictly less destructive action under the
ordering `keep_all ≺ downgrade ≺ text_only ≺ merge_or_delete` — and with
the default 0.7/0.4/0.2 thresholds `apply` returns exactly the action of
the spec's ordered threshold mapping. -/
theorem policy_monotone_and_default_mapping (p : PolicyThresholds) (u1 u2 : ℚ)
    (h : u1 ≤ u2) :
    destructiveness (policyApply p u2) ≤ destructiveness (policyApply p u1) ∧
    ∀ u, policyApply defaultThresholds u = specDecide defaultThresholds u := by
  constructor
  · unfold policyApply
    split_ifs <;> simp [destructiveness] <;> linarith
  · intro u
    rcases le_or_lt defaultThresholds.high u with h1 | h1
    · simp [policyApply, specDecide, ge_iff_le, h1]
    · rcases le_or_lt defaultThresholds.med u with h2 | h2
      · simp [policyApply, specDecide, ge_iff_le, h2, not_le.mpr h1, h1]
      · rcases le_or_lt defaultThresholds.low u with h3 | h3
        · simp [policyApply, specDecide, ge_iff_le, h3, not_le.mpr h1, not_le.mpr h2, h2]
        · simp [policyApply, specDecide, ge_iff_le,
            not_le.mpr h1, not_le.mpr h2, not_le.mpr h3]

/-- C10: a synthetic node built by `_merge_nodes` starts with utility
exactly 0.4, unlocked, carries the first merged source's level, spans the
merged run's time range (its start is the minimum source start and its
end the maximum source end), and its stored utility is not below the
default low threshold, so a fresh merge node is not an immediate
re-merge candidate. -/
theorem merged_node_initial_fields (newId : String) (n0 : GNode) (rest : List GNode) :
    (mkMergedNode newId n0 rest).utility_score = mkRat 2 5 ∧
    (mkMergedNode newId n0 rest).is_locked = false ∧
    (mkMergedNode newId n0 rest).level = n0.level ∧
    (mkMergedNode newId n0 rest).merged_from = (n0 :: rest).map GNode.node_id ∧
    (mkMergedNode newId n0 rest).timestamp_start ∈
      (n0 :: rest).map GNode.timestamp_start ∧
    (∀ n ∈ n0 :: rest, (mkMergedNode newId n0 rest).timestamp_start ≤ n.timestamp_start) ∧
    (mkMergedNode newId n0 rest).timestamp_end ∈ (n0 :: rest).map GNode.timestamp_end ∧
    (∀ n ∈ n0 :: rest, n.timestamp_end ≤ (mkMergedNode newId n0 rest).timestamp_end) ∧
    ¬ (mkMergedNode newId n0 rest).utility_score < defaultThresholds.low := by
  have hs : (mkMergedNode newId n0 rest).timestamp_start =
      (rest.map GNode.timestamp_start).foldl min n0.timestamp_start := by
    simp [mkMergedNode, List.foldl_map]
  have he : (mkMergedNode newId n0 rest).timestamp_end =
      (rest.map GNode.timestamp_end).foldl max n0.timestamp_end := by
    simp [mkMergedNode, List.foldl_map]
  refine ⟨rfl, rfl, rfl, rfl, ?_, ?_, ?_, ?_, ?_⟩
  · rw [hs, List.map_cons]
    exact foldl_min_mem _ _
  · intro n hn
    rw [hs]
    refine foldl_min_le_all _ _ n.timestamp_start ?_
    rw [List.mem_cons] at hn
    rcases hn with h | h
    · rw [h]
      exact List.mem_cons_self _ _
    · exact List.mem_cons_of_mem _ (List.mem_map_of_mem _ h)
  · rw [he, List.map_cons]
    exact foldl_max_mem _ _
  · intro n hn
    rw [he]
    refine foldl_max_ge_all _ _ n.timestamp_end ?_
    rw [List.mem_cons] at hn
    rcases hn with h | h
    · rw [h]
      exact List.mem_cons_self _ _
    · exact List.mem_cons_of_mem _ (List.mem_map_of_mem _ h)
  · show ¬ mkRat 2 5 < defaultThresholds.low
    rw [Rat.mkRat_eq_div]
    norm_num [defaultThresholds]

/-- C7 (amended): applying a correction with text `uc` overwrites the
summary, sets the corrected flag, and appends a record whose `correction`
field is exactly `uc` as the newest history entry; the history length
grows by exactly 1 while below the configured maximum and is capped at
the maximum (oldest dropped first) once full. -/
theorem correction_history_append (maxLen : ℕ) (d : NData) (cs uc : String)
    (hmax : 1 ≤ maxLen) :
    ((correctMemoryApply maxLen d cs uc).correction_history.getD []).length =
      min ((d.correction_history.getD []).length + 1) maxLen ∧
    ((correctMemoryApply maxLen d cs uc).correction_history.getD []).getLast? =
      some ⟨uc, some d.nl_summary, some cs, none⟩ ∧
    (correctMemoryApply maxLen d cs uc).nl_summary = cs ∧
    (correctMemoryApply maxLen d cs uc).corrected = true := by
  have hist :
      (correctMemoryApply maxLen d cs uc).correction_history.getD [] =
        trimHistory maxLen ((d.correction_history.getD []) ++
          [⟨uc, some d.nl_summary, some cs, none⟩]) := by
    simp [correctMemoryApply, appendTrimmed]
  set h0 := d.correction_history.getD [] with hh0
  set r : CRec := ⟨uc, some d.nl_summary, some cs, none⟩ with hr
  refine ⟨?_, ?_, rfl, rfl⟩
  · rw [hist]
    unfold trimHistory
    split_ifs with hc
    · rw [List.length_drop]
      simp only [List.length_append, List.length_cons, List.length_nil] at hc ⊢
      omega
    · simp only [List.length_append, List.length_cons, List.length_nil] at hc ⊢
      omega
  · rw [hist]
    unfold trimHistory
    split_ifs with hc
    · have hle : (h0 ++ [r]).length - maxLen ≤ h0.length := by
        simp only [List.length_append, List.length_cons, List.length_nil]
        omega
      rw [List.drop_append_of_le_length hle]
      exact List.getLast?_concat _
    · exact List.getLast?_concat _

/-- C9 (amended): with weights (0.5, 0.3, 0.2), a never-accessed node
whose summary matches none of the salience keyword buckets (no anomaly,
completion, or routine-action keywords, so the heuristic salience is its
0.3 floor) scores strictly below 0.4 for every density in [0, 1], and the
default policy maps that utility to `text_only` or `merge_or_delete`,
never `keep_all`. -/
theorem cold_plain_node_never_kept (decayAt : ℤ → ℚ) (deltaDays : ℤ)
    (summary : String) (density : ℚ)
    (hd0 : 0 ≤ density) (hd1 : density ≤ 1)
    (hk1 : highKeywords.any (fun kw => strContainsSub summary kw) = false)
    (hk2 : mediumHighKeywords.any (fun kw => strContainsSub summary kw) = false)
    (hk3 : mediumKeywords.any (fun kw => strContainsSub summary kw) = false) :
    scorerCompute defaultWeights decayAt 0 deltaDays none summary density < 2/5 ∧
    (policyApply defaultThresholds
        (scorerCompute defaultWeights decayAt 0 deltaDays none summary density) =
          FAction.text_only ∨
      policyApply defaultThresholds
        (scorerCompute defaultWeights decayAt 0 deltaDays none summary density) =
          FAction.merge_or_delete) ∧
    policyApply defaultThresholds
      (scorerCompute defaultWeights decayAt 0 deltaDays none summary density) ≠
        FAction.keep_all := by
  have hS : heuristicSalience summary = 3/10 := by
    simp [heuristicSalience, hk1, hk2, hk3]
  have hval : scorerCompute defaultWeights decayAt 0 deltaDays none summary density =
      7/50 + density/5 := by
    unfold scorerCompute
    simp only [normalizeWeights, defaultWeights, computeAccess, hS,
      Option.getD_none, eq_self_iff_true, if_true]
    have hb : (0:ℚ) ≤ 7/50 + density/5 := by linarith
    have ht : (7:ℚ)/50 + density/5 ≤ 1 := by linarith
    rw [show ((1:ℚ)/2 / (1/2 + 3/10 + 1/5) * (1/10) +
        3/10 / (1/2 + 3/10 + 1/5) * (3/10) +
        1/5 / (1/2 + 3/10 + 1/5) * density) = 7/50 + density/5 by ring]
    rw [clip01, max_eq_left hb, min_eq_left ht]
  have hlt : scorerCompute defaultWeights decayAt 0 deltaDays none summary density < 2/5 := by
    rw [hval]; linarith
  refine ⟨hlt, ?_, ?_⟩
  · unfold policyApply
    split_ifs with h1 h2 h3
    · exfalso
      simp only [ge_iff_le, defaultThresholds] at h1
      linarith
    · exfalso
      simp only [ge_iff_le, defaultThresholds] at h2
      linarith
    · exact Or.inl rfl
    · exact Or.inr rfl
  · unfold policyApply
    split_ifs with h1 h2 h3 <;> simp_all [defaultThresholds, ge_iff_le]
    linarith

/-- Fact: `_text_only` leaves the node id unchanged. -/
theorem textOnly_id (d : NData) : (textOnly d).1.id = d.id := by
  unfold textOnly forgetRawData
  rcases hr : d.raw with _ | r <;> rcases ho : d.objs with _ | o <;>
    rcases hl : d.rels with _ | l <;> simp [hr, ho, hl]

/-- Fact: `_text_only` produces a payload-free record. -/
theorem textOnly_payloadFree (d : NData) : PayloadFree (textOnly d).1 := by
  unfold textOnly forgetRawData PayloadFree
  rcases hr : d.raw with _ | r <;> rcases ho : d.objs with _ | o <;>
    rcases hl : d.rels with _ | l <;> simp [hr, ho, hl]

mutual
/-- Fact: `_delete_subtree` never unlinks: the subtree's node ids survive in
order. -/
theorem deleteSubtreeT_ids : ∀ t : MTree, (deleteSubtreeT t).1.subtreeIds = t.subtreeIds
  | .node d c => by
    rcases hF : deleteSubtreeF c with ⟨c', f1⟩
    rcases hT : textOnly d with ⟨d', f2⟩
    have h1 : c'.subtreeIds = c.subtreeIds := by
      have := deleteSubtreeF_ids c
      rw [hF] at this
      exact this
    have h2 : d'.id = d.id := by
      have := textOnly_id d
      rw [hT] at this
      exact this
    simp [deleteSubtreeT, hF, hT, MTree.subtreeIds, h1, h2]

/-- Forest version of `deleteSubtreeT_ids`. -/
theorem deleteSubtreeF_ids : ∀ f : MForest, (deleteSubtreeF f).1.subtreeIds = f.subtreeIds
  | .nil => by simp [deleteSubtreeF]
  | .cons h t => by
    rcases hH : deleteSubtreeT h with ⟨h', f1⟩
    rcases hT : deleteSubtreeF t with ⟨t', f2⟩
    have h1 : h'.subtreeIds = h.subtreeIds := by
      have := deleteSubtreeT_ids h
      rw [hH] at this
      exact this
    have h2 : t'.subtreeIds = t.subtreeIds := by
      have := deleteSubtreeF_ids t
      rw [hT] at this
      exact this
    simp [deleteSubtreeF, hH, hT, MForest.subtreeIds, h1, h2]
end

mutual
/-- After `_delete_subtree` every node of the subtree is payload-free. -/
theorem deleteSubtreeT_payloadFree :
    ∀ t : MTree, ∀ x ∈ (deleteSubtreeT t).1.subtreeData, PayloadFree x
  | .node d c => by
    rcases hF : deleteSubtreeF c with ⟨c', f1⟩
    rcases hT : textOnly d with ⟨d', f2⟩
    intro x hx
    simp only [deleteSubtreeT, hF, hT, MTree.subtreeData, List.mem_cons] at hx
    rcases hx with hx | hx
    · rw [hx]
      have := textOnly_payloadFree d
      rw [hT] at this
      exact this
    · have := deleteSubtreeF_payloadFree c
      rw [hF] at this
      exact this x hx

/-- Forest version of `deleteSubtreeT_payloadFree`. -/
theorem deleteSubtreeF_payloadFree :
    ∀ f : MForest, ∀ x ∈ (deleteSubtreeF f).1.subtreeData, PayloadFree x
  | .nil => by
    intro x hx
    simp [deleteSubtreeF, MForest.subtreeData] at hx
  | .cons h t => by
    rcases hH : deleteSubtreeT h with ⟨h', f1⟩
    rcases hT : deleteSubtreeF t with ⟨t', f2⟩
    intro x hx
    simp only [deleteSubtreeF, hH, hT, MForest.subtreeData, List.mem_append] at hx
    rcases hx with hx | hx
    · have := deleteSubtreeT_payloadFree h
      rw [hH] at this
      exact this x hx
    · have := deleteSubtreeF_payloadFree t
      rw [hT] at this
      exact this x hx
end

/-- C1 (amended): when `_merge_or_delete_node` handles a non-leaf node
(level above 2, children present) whose children all carry a stored
utility below the medium threshold, it runs `_delete_subtree` on the whole
subtree: every node of the subtree ends payload-free, but nothing is
unlinked (the subtree's ids survive unchanged, and nothing outside the
handled node's own subtree — in particular the tree root, for a non-root
node — is touched), and the deletion count reported is `1 +` the number
of **direct** children, not `1 +` the number of all descendants. -/
theorem all_low_children_delete_subtree (med : ℚ) (d : NData) (c0 : MTree) (cs : MForest)
    (hlevel : ¬ (MTree.node d (.cons c0 cs)).level ≤ 2)
    (hlow : ∀ k ∈ (MForest.cons c0 cs).toList, childUtility k < med) :
    mergeOrDeleteT med (.node d (.cons c0 cs)) =
      ((deleteSubtreeT (.node d (.cons c0 cs))).1,
        (deleteSubtreeT (.node d (.cons c0 cs))).2,
        1 + (MForest.cons c0 cs).toList.length) ∧
    (∀ x ∈ (mergeOrDeleteT med (.node d (.cons c0 cs))).1.subtreeData, PayloadFree x) ∧
    (mergeOrDeleteT med (.node d (.cons c0 cs))).1.subtreeIds =
      (MTree.node d (.cons c0 cs)).subtreeIds := by
  have hfil :
      (MForest.cons c0 cs).toList.filter (fun k => decide (med ≤ childUtility k)) = [] := by
    rw [List.filter_eq_nil_iff]
    intro k hk
    simp only [decide_eq_true_eq, not_le]
    exact hlow k hk
  have hmain : mergeOrDeleteT med (.node d (.cons c0 cs)) =
      ((deleteSubtreeT (.node d (.cons c0 cs))).1,
        (deleteSubtreeT (.node d (.cons c0 cs))).2,
        1 + (MForest.cons c0 cs).toList.length) := by
    rw [mergeOrDeleteT]
    rw [if_neg hlevel]
    simp only [hfil, List.length_nil, eq_self_iff_true, if_true]
  refine ⟨hmain, ?_, ?_⟩
  · rw [hmain]
    exact deleteSubtreeT_payloadFree _
  · rw [hmain]
    exact deleteSubtreeT_ids _

/-- The root id occurs in the subtree's ids. -/
theorem rootId_mem_subtreeIds : ∀ t : MTree, t.rootId ∈ t.subtreeIds
  | .node d c => by
    simp [MTree.rootId, MTree.data, MTree.subtreeIds]

mutual
/-- Fact: `find_and_update_parents` reports nothing when the target is absent
from the subtree. -/
theorem findUpd_not_mem :
    ∀ t : MTree, target ∉ t.subtreeIds → findUpd target t = (false, [])
  | .node d c => by
    intro h
    simp only [MTree.subtreeIds, List.mem_cons, not_or] at h
    have hF := findUpdF_not_mem c h.2
    simp [findUpd, hF]

/-- Forest version of `findUpd_not_mem`. -/
theorem findUpdF_not_mem :
    ∀ f : MForest, target ∉ f.subtreeIds → findUpdF target f = (false, [])
  | .nil => by
    intro _
    simp [findUpdF]
  | .cons h rest => by
    intro hmem
    simp only [MForest.subtreeIds, List.mem_append, not_or] at hmem
    have hid : h.rootId ≠ target := by
      intro he
      exact hmem.1 (he ▸ rootId_mem_subtreeIds h)
    have hT := findUpd_not_mem h hmem.1
    have hF := findUpdF_not_mem rest hmem.2
    simp [findUpdF, hid, hT, hF]
end

mutual
/-- When the target occurs in the subtree, the spec-side ancestor chain is
defined. -/
theorem findAnc_isSome :
    ∀ t : MTree, target ∈ t.subtreeIds → (findAnc target t).isSome
  | .node d c => by
    intro h
    by_cases hid : d.id = target
    · simp [findAnc, hid]
    · simp only [MTree.subtreeIds, List.mem_cons] at h
      rcases h with h | h
      · exact absurd h.symm hid
      · have hs := findAncF_isSome c h
        rcases ho : findAncF target c with _ | l0
        · rw [ho] at hs
          simp at hs
        · simp [findAnc, hid, ho]

/-- Forest version of `findAnc_isSome`. -/
theorem findAncF_isSome :
    ∀ f : MForest, target ∈ f.subtreeIds → (findAncF target f).isSome
  | .nil => by
    intro h
    simp [MForest.subtreeIds] at h
  | .cons h rest => by
    intro hmem
    simp only [MForest.subtreeIds, List.mem_append] at hmem
    rcases hmem with hmem | hmem
    · have := findAnc_isSome h hmem
      rcases ho : findAnc target h with _ | l
      · rw [ho] at this
        simp at this
      · simp [findAncF, ho]
    · rcases ho : findAnc target h with _ | l
      · have := findAncF_isSome rest hmem
        simp [findAncF, ho, this]
      · simp [findAncF, ho]
end

mutual
/-- The spec-side ancestor chain, reversed and capped with the target,
occurs in traversal order inside the subtree's id list. -/
theorem findAnc_sublist :
    ∀ t : MTree, ∀ l, findAnc target t = some l →
      (l.reverse ++ [target]).Sublist t.subtreeIds
  | .node d c => by
    intro l hl
    simp only [findAnc] at hl
    by_cases hid : d.id = target
    · rw [if_pos hid] at hl
      injection hl with hl
      subst hl
      simp only [List.reverse_nil, List.nil_append, MTree.subtreeIds, hid]
      exact (List.nil_sublist _).cons₂ target
    · rw [if_neg hid] at hl
      rcases ho : findAncF target c with _ | l0
      · rw [ho] at hl
        simp at hl
      · rw [ho] at hl
        simp only [Option.map_some'] at hl
        injection hl with hl
        subst hl
        have hsub := findAncF_sublist c l0 ho
        simp only [List.reverse_append, List.reverse_cons, List.reverse_nil,
          List.nil_append, List.singleton_append, List.cons_append, MTree.subtreeIds]
        exact hsub.cons₂ d.id

/-- Forest version of `findAnc_sublist`. -/
theorem findAncF_sublist :
    ∀ f : MForest, ∀ l, findAncF target f = some l →
      (l.reverse ++ [target]).Sublist f.subtreeIds
  | .nil => by
    intro l hl
    simp [findAncF] at hl
  | .cons h rest => by
    intro l hl
    simp only [findAncF] at hl
    rcases ho : findAnc target h with _ | l0
    · rw [ho] at hl
      have := findAncF_sublist rest l hl
      exact this.trans (List.sublist_append_right _ _)
    · rw [ho] at hl
      injection hl with hl
      subst hl
      exact (findAnc_sublist h l0 ho).trans (List.sublist_append_left _ _)
end

mutual
/-- The walk of `_propagate_update` reproduces the spec-side ancestor
chain: on a duplicate-free subtree in which the chain is `l`, the appended
id list is exactly `l`, and the returned flag is true unless the target is
this subtree's root (in which case the chain is empty). -/
theorem findUpd_eq_of_findAnc :
    ∀ t : MTree, t.subtreeIds.Nodup → ∀ l, findAnc target t = some l →
      (findUpd target t).2 = l ∧
        ((findUpd target t).1 = true ∨ (t.rootId = target ∧ l = []))
  | .node d c => by
    intro hnd l hl
    simp only [MTree.subtreeIds, List.nodup_cons] at hnd
    simp only [findAnc] at hl
    by_cases hid : d.id = target
    · rw [if_pos hid] at hl
      injection hl with hl
      subst hl
      have hF : findUpdF target c = (false, []) := by
        refine findUpdF_not_mem c ?_
        rw [← hid]
        exact hnd.1
      refine ⟨?_, Or.inr ⟨hid, rfl⟩⟩
      simp [findUpd, hF]
    · rw [if_neg hid] at hl
      rcases ho : findAncF target c with _ | l0
      · rw [ho] at hl
        simp at hl
      · rw [ho] at hl
        simp only [Option.map_some'] at hl
        injection hl with hl
        subst hl
        have hF := findUpdF_eq_of_findAncF c hnd.2 l0 ho
        refine ⟨?_, Or.inl ?_⟩ <;> simp [findUpd, hF]

/-- Forest version of `findUpd_eq_of_findAnc`: when the chain is found in
a duplicate-free forest, the child loop returns exactly it with a true
flag. -/
theorem findUpdF_eq_of_findAncF :
    ∀ f : MForest, f.subtreeIds.Nodup → ∀ l, findAncF target f = some l →
      findUpdF target f = (true, l)
  | .nil => by
    intro _ l hl
    simp [findAncF] at hl
  | .cons h rest => by
    intro hnd l hl
    simp only [MForest.subtreeIds] at hnd
    rw [List.nodup_append] at hnd
    obtain ⟨hnd1, hnd2, hdisj⟩ := hnd
    simp only [findAncF] at hl
    rcases ho : findAnc target h with _ | l0
    · rw [ho] at hl
      have hrest := findUpdF_eq_of_findAncF rest hnd2 l hl
      have hid : h.rootId ≠ target := by
        intro he
        have := findAnc_isSome h (he ▸ rootId_mem_subtreeIds h)
        rw [ho] at this
        simp at this
      have hnm : target ∉ h.subtreeIds := by
        intro hm
        have := findAnc_isSome h hm
        rw [ho] at this
        simp at this
      have hT := findUpd_not_mem h hnm
      simp [findUpdF, hid, hT, hrest]
    · rw [ho] at hl
      injection hl with hl
      subst hl
      have hmemh : target ∈ h.subtreeIds := by
        have hsub := findAnc_sublist h l0 ho
        have : target ∈ l0.reverse ++ [target] := by simp
        exact hsub.mem this
      have hnrest : target ∉ rest.subtreeIds := fun hm => hdisj hmemh hm
      have hFrest := findUpdF_not_mem rest hnrest
      by_cases hid : h.rootId = target
      · have hl0 : l0 = [] := by
          rcases h with ⟨dh, ch⟩
          simp only [MTree.rootId, MTree.data] at hid
          simp only [findAnc, hid, if_pos] at ho
          injection ho with ho
          exact ho.symm
        subst hl0
        simp [findUpdF, hid, hFrest]
      · have hT := findUpd_eq_of_findAnc h hnd1 l0 ho
        rcases hT with ⟨hT2, hT1 | hT1⟩
        · have hpair : findUpd target h = (true, l0) := by
            rcases hu : findUpd target h with ⟨b, l'⟩
            rw [hu] at hT1 hT2
            simp only at hT1 hT2
            rw [hT1, hT2]
          simp [findUpdF, hid, hpair, hFrest]
        · exact absurd hT1.1 hid
end

/-- C6: on a memory tree with distinct node ids, the upward-propagation
walk of `CorrectionAgent._propagate_update` returns exactly the target
node's ancestors from its parent up to the tree root, nearest ancestor
first, each exactly once. -/
theorem propagate_update_returns_ancestors (t : MTree) (target : ℕ) (l : List ℕ)
    (h1 : t.subtreeIds.Nodup) (h2 : findAnc target t = some l) :
    (findUpd target t).2 = l ∧ l.Nodup := by
  refine ⟨(findUpd_eq_of_findAnc t h1 l h2).1, ?_⟩
  have hsub := findAnc_sublist t l h2
  have hnd := hsub.nodup h1
  rw [List.nodup_append] at hnd
  exact List.nodup_reverse.mp hnd.1

/-- Fact: `getLast?` of an append with nonempty right part. -/
theorem getLast?_append_right {α : Type} (l1 l2 : List α) (h : l2 ≠ []) :
    (l1 ++ l2).getLast? = l2.getLast? := by
  rw [List.getLast?_append]
  rcases ho : l2.getLast? with _ | w
  · exact absurd (List.getLast?_eq_none_iff.mp ho) h
  · rfl

/-- Fact: `getLast?` past a cons when the tail is nonempty. -/
theorem getLast?_cons_of_ne {α : Type} (z : α) (zs : List α) (h : zs ≠ []) :
    (z :: zs).getLast? = zs.getLast? :=
  getLast?_append_right [z] zs h

/-- Fact: `dropWhile` over an append stops inside the left part when the left
part's last element fails the predicate. -/
theorem dropWhile_append_last {α : Type} (p : α → Bool) :
    ∀ (a b : List α) (w : α), a.getLast? = some w → p w = false →
      (a ++ b).dropWhile p = a.dropWhile p ++ b := by
  intro a
  induction a with
  | nil =>
    intro b w hw _
    simp at hw
  | cons z zs ih =>
    intro b w hw hpw
    by_cases hne : zs = []
    · subst hne
      simp only [List.getLast?_singleton, Option.some.injEq] at hw
      subst hw
      simp [List.dropWhile_cons, hpw]
    · rw [getLast?_cons_of_ne z zs hne] at hw
      rcases hpz : p z with _ | _
      · simp only [List.cons_append, List.dropWhile_cons, hpz, Bool.false_eq_true, if_false]
      · simp only [List.cons_append, List.dropWhile_cons, hpz, if_true]
        exact ih b w hw hpw

/-- Fact: `dropWhile` keeps the last element when that element fails the
predicate. -/
theorem getLast?_dropWhile {α : Type} (p : α → Bool) :
    ∀ (l : List α) (w : α), l.getLast? = some w → p w = false →
      (l.dropWhile p).getLast? = some w := by
  intro l
  induction l with
  | nil =>
    intro w hw _
    simp at hw
  | cons z zs ih =>
    intro w hw hpw
    by_cases hne : zs = []
    · subst hne
      simp only [List.getLast?_singleton, Option.some.injEq] at hw
      subst hw
      simp [List.dropWhile_cons, hpw]
    · rw [getLast?_cons_of_ne z zs hne] at hw
      rcases hpz : p z with _ | _
      · simp only [List.dropWhile_cons, hpz, Bool.false_eq_true, if_false]
        rw [getLast?_cons_of_ne z zs hne]
        exact hw
      · simp only [List.dropWhile_cons, hpz, if_true]
        exact ih w hw hpw

/-- Unfolding equation for `mergeScan` on a cons cell. -/
theorem mergeScan_cons (low : ℚ) (x : GNode × ℚ) (xs : List (GNode × ℚ)) :
    mergeScan low (x :: xs) =
      if x.2 < low then
        (if 2 ≤ (x :: xs.takeWhile (fun y => decide (y.2 < low))).length
         then [x :: xs.takeWhile (fun y => decide (y.2 < low))] else []) ++
        mergeScan low (xs.dropWhile (fun y => decide (y.2 < low)))
      else mergeScan low xs := by
  rw [mergeScan]

/-- Every run emitted by the consolidation scan is a maximal run of
contiguous below-`low` candidates of length at least 2. -/
theorem mergeScan_sound (low : ℚ) :
    ∀ l r, r ∈ mergeScan low l → IsMaximalLowRun low l r ∧ 2 ≤ r.length := by
  have main : ∀ n (l : List (GNode × ℚ)), l.length ≤ n →
      ∀ r, r ∈ mergeScan low l → IsMaximalLowRun low l r ∧ 2 ≤ r.length := by
    intro n
    induction n with
    | zero =>
      intro l hlen r hr
      rcases l with _ | ⟨x, xs⟩
      · simp [mergeScan] at hr
      · simp at hlen
    | succ n ih =>
      intro l hlen r hr
      rcases l with _ | ⟨x, xs⟩
      · simp [mergeScan] at hr
      · rw [mergeScan_cons] at hr
        by_cases hx : x.2 < low
        · rw [if_pos hx] at hr
          rw [List.mem_append] at hr
          rcases hr with hr | hr
          · -- the emitted run itself
            have hrun : r = x :: xs.takeWhile (fun y => decide (y.2 < low)) ∧
                2 ≤ (x :: xs.takeWhile (fun y => decide (y.2 < low))).length := by
              by_cases hlen2 : 2 ≤ (x :: xs.takeWhile (fun y => decide (y.2 < low))).length
              · rw [if_pos hlen2, List.mem_singleton] at hr
                exact ⟨hr, hlen2⟩
              · rw [if_neg hlen2] at hr
                simp at hr
            obtain ⟨hreq, hl2⟩ := hrun
            subst hreq
            refine ⟨⟨List.cons_ne_nil _ _, ?_, [], xs.dropWhile (fun y => decide (y.2 < low)),
              ?_, ?_, ?_⟩, hl2⟩
            · intro z hz
              rw [List.mem_cons] at hz
              rcases hz with hz | hz
              · rw [hz]; exact hx
              · have hp := List.mem_takeWhile_imp hz
                simp only [decide_eq_true_eq] at hp
                exact hp
            · simp [List.takeWhile_append_dropWhile]
            · intro z hz
              simp at hz
            · intro z hz
              have hnot := List.head?_dropWhile_not (fun y => decide (y.2 < low)) xs
              rw [hz] at hnot
              simpa using hnot
          · -- a run found after the scanned prefix
            have hlen3 : (xs.dropWhile (fun y => decide (y.2 < low))).length ≤ n := by
              have h1 := (List.dropWhile_sublist
                (l := xs) (p := fun y => decide (y.2 < low))).length_le
              simp only [List.length_cons] at hlen
              omega
            obtain ⟨⟨hne, hlow2, pre, post, hdec, hpreB, hpostB⟩, hl2⟩ :=
              ih (xs.dropWhile (fun y => decide (y.2 < low))) hlen3 r hr
            by_cases hpre : pre = []
            · exfalso
              subst hpre
              rcases r with _ | ⟨rh, rt⟩
              · exact hne rfl
              · have hhead : (xs.dropWhile (fun y => decide (y.2 < low))).head? = some rh := by
                  rw [hdec]
                  simp
                have hnot := List.head?_dropWhile_not (fun y => decide (y.2 < low)) xs
                rw [hhead] at hnot
                simp only [decide_eq_false_iff_not] at hnot
                exact hnot (hlow2 rh (List.mem_cons_self _ _))
            · refine ⟨⟨hne, hlow2,
                (x :: xs.takeWhile (fun y => decide (y.2 < low))) ++ pre, post, ?_, ?_, hpostB⟩,
                hl2⟩
              · simp only [List.cons_append, List.append_assoc]
                rw [← List.append_assoc pre r post, ← hdec, List.takeWhile_append_dropWhile]
              · intro z hz
                rw [getLast?_append_right _ pre hpre] at hz
                exact hpreB z hz
        · rw [if_neg hx] at hr
          have hlen3 : xs.length ≤ n := by
            simp only [List.length_cons] at hlen
            omega
          obtain ⟨⟨hne, hlow2, pre, post, hdec, hpreB, hpostB⟩, hl2⟩ := ih xs hlen3 r hr
          refine ⟨⟨hne, hlow2, x :: pre, post, ?_, ?_, hpostB⟩, hl2⟩
          · rw [hdec]
            simp
          · by_cases hpre : pre = []
            · subst hpre
              intro z hz
              simp only [List.getLast?_singleton, Option.some.injEq] at hz
              rw [← hz]
              exact hx
            · intro z hz
              rw [getLast?_cons_of_ne x pre hpre] at hz
              exact hpreB z hz
  intro l
  exact main l.length l le_rfl

/-- Every maximal run of contiguous below-`low` candidates with at least
two members is emitted by the consolidation scan. -/
theorem mergeScan_complete (low : ℚ) :
    ∀ l r, IsMaximalLowRun low l r → 2 ≤ r.length → r ∈ mergeScan low l := by
  have main : ∀ n (l : List (GNode × ℚ)), l.length ≤ n →
      ∀ r, IsMaximalLowRun low l r → 2 ≤ r.length → r ∈ mergeScan low l := by
    intro n
    induction n with
    | zero =>
      intro l hlen r hmax h2
      obtain ⟨hne, _, pre, post, hdec, _, _⟩ := hmax
      rcases l with _ | ⟨x, xs⟩
      · rcases List.append_eq_nil.mp hdec.symm with ⟨h1, h2'⟩
        rcases List.append_eq_nil.mp h1 with ⟨_, hrnil⟩
        exact absurd hrnil hne
      · simp at hlen
    | succ n ih =>
      intro l hlen r hmax h2
      obtain ⟨hne, hlow, pre, post, hdec, hpreB, hpostB⟩ := hmax
      rcases l with _ | ⟨x, xs⟩
      · rcases List.append_eq_nil.mp hdec.symm with ⟨h1, h2'⟩
        rcases List.append_eq_nil.mp h1 with ⟨_, hrnil⟩
        exact absurd hrnil hne
      · rw [mergeScan_cons]
        rcases hpre : pre with _ | ⟨z, pre'⟩
        · -- the run starts at the head of the list
          subst hpre
          rcases hr : r with _ | ⟨rh, rt⟩
          · exact absurd hr hne
          · subst hr
            simp only [List.nil_append, List.cons_append] at hdec
            have hxrh : x = rh ∧ xs = rt ++ post := by
              constructor
              · exact (List.cons_eq_cons.mp hdec).1
              · exact (List.cons_eq_cons.mp hdec).2
            obtain ⟨hxrh, hxs⟩ := hxrh
            subst hxrh
            have hx : x.2 < low := hlow x (List.mem_cons_self _ _)
            rw [if_pos hx]
            have htw : xs.takeWhile (fun y => decide (y.2 < low)) = rt := by
              rw [hxs, List.takeWhile_append_of_pos]
              · have htp : post.takeWhile (fun y => decide (y.2 < low)) = [] := by
                  rcases post with _ | ⟨ph, pt⟩
                  · rfl
                  · have := hpostB ph rfl
                    rw [List.takeWhile_cons_of_neg]
                    simp only [decide_eq_true_eq]
                    exact this
                rw [htp, List.append_nil]
              · intro a ha
                simp only [decide_eq_true_eq]
                exact hlow a (List.mem_cons_of_mem _ ha)
            rw [htw]
            rw [if_pos]
            · exact List.mem_append_left _ (List.mem_singleton.mpr rfl)
            · simpa using h2
        · -- the run starts deeper: recurse past the head
          have hxz : x = z ∧ xs = pre' ++ r ++ post := by
            rw [hpre] at hdec
            simp only [List.cons_append] at hdec
            exact ⟨(List.cons_eq_cons.mp hdec).1, (List.cons_eq_cons.mp hdec).2⟩
          obtain ⟨hxz, hxs⟩ := hxz
          subst hxz
          by_cases hx : x.2 < low
          · -- head is low: pre' is nonempty and ends non-low
            rw [if_pos hx]
            have hpre' : pre' ≠ [] := by
              intro hp
              subst hp
              have := hpreB x (by rw [hpre]; rfl)
              exact this hx
            obtain ⟨w, hw⟩ : ∃ w, pre'.getLast? = some w := by
              rcases ho : pre'.getLast? with _ | w
              · exact absurd (List.getLast?_eq_none_iff.mp ho) hpre'
              · exact ⟨w, rfl⟩
            have hwB : ¬ w.2 < low := by
              refine hpreB w ?_
              rw [hpre, getLast?_cons_of_ne x pre' hpre']
              exact hw
            have hpw : (fun y : GNode × ℚ => decide (y.2 < low)) w = false := by
              simp only [decide_eq_false_iff_not]
              exact hwB
            have hdw : xs.dropWhile (fun y => decide (y.2 < low)) =
                pre'.dropWhile (fun y => decide (y.2 < low)) ++ (r ++ post) := by
              rw [hxs, List.append_assoc]
              exact dropWhile_append_last _ pre' (r ++ post) w hw hpw
            have hlen3 : (xs.dropWhile (fun y => decide (y.2 < low))).length ≤ n := by
              have h1 := (List.dropWhile_sublist
                (l := xs) (p := fun y => decide (y.2 < low))).length_le
              simp only [List.length_cons] at hlen
              omega
            refine List.mem_append_right _ (ih _ hlen3 r ⟨hne, hlow,
              pre'.dropWhile (fun y => decide (y.2 < low)), post, ?_, ?_, hpostB⟩ h2)
            · rw [hdw, List.append_assoc]
            · intro y hy
              have := getLast?_dropWhile (fun y : GNode × ℚ => decide (y.2 < low)) pre' w hw hpw
              rw [this] at hy
              injection hy with hy
              rw [← hy]
              exact hwB
          · -- head not low: scan just moves on
            rw [if_neg hx]
            have hlen3 : xs.length ≤ n := by
              simp only [List.length_cons] at hlen
              omega
            refine ih xs hlen3 r ⟨hne, hlow, pre', post, hxs, ?_, hpostB⟩ h2
            by_cases hp' : pre' = []
            · subst hp'
              intro y hy
              simp at hy
            · intro y hy
              refine hpreB y ?_
              rw [hpre, getLast?_cons_of_ne x pre' hp']
              exact hy
  intro l
  exact main l.length l le_rfl

/-- Fact: `filterMap` with a function that never drops keeps the length. -/
theorem filterMap_length_of_all_some {α β : Type} (g : α → Option β) :
    ∀ l : List α, (∀ x ∈ l, (g x).isSome) → (l.filterMap g).length = l.length := by
  intro l
  induction l with
  | nil => intro _; rfl
  | cons a as ih =>
    intro h
    have ha := h a (List.mem_cons_self _ _)
    rcases hg : g a with _ | b
    · rw [hg] at ha
      simp at ha
    · rw [List.filterMap_cons, hg]
      simp only [List.length_cons]
      rw [ih (fun x hx => h x (List.mem_cons_of_mem _ hx))]

/-- C4 (amended): mid-band consolidation sorts the non-locked scored
candidates by `timestamp_start`; the runs it merges are exactly the
maximal runs of two or more contiguous candidates scoring below `low`;
each run produces exactly one synthetic node whose lineage
(`merged_from`) is the run's ids in order, whose level is the run's
first node's level (the originals' common level when they share one),
and whose combined summary is produced by the local `_llm_merge`
fallback — pipe-concatenation for up to three summaries, a fixed count
phrase beyond that, never a generation-collaborator call; all nodes of
every merged run are deleted, and length-1 runs are left unmerged. -/
theorem event_goal_consolidation (p : PolicyThresholds) (score : GNode → ℚ)
    (newId : ℕ → String) (nodes : List GNode) :
    List.Sorted tsLe (gardenCandidates score nodes) ∧
    (∀ r, r ∈ mergeScan p.low (gardenCandidates score nodes) ↔
      IsMaximalLowRun p.low (gardenCandidates score nodes) r ∧ 2 ≤ r.length) ∧
    (processEventGoal p score newId nodes).1.length =
      (mergeScan p.low (gardenCandidates score nodes)).length ∧
    (∀ m ∈ (processEventGoal p score newId nodes).1,
      ∃ r ∈ mergeScan p.low (gardenCandidates score nodes), ∃ x xs, r = x :: xs ∧
        m.merged_from = (x :: xs).map (fun q => q.1.node_id) ∧
        m.level = x.1.level ∧
        m.nl_summary = llmMerge ((x :: xs).map (fun q => q.1.nl_summary)) ∧
        m.utility_score = mkRat 2 5 ∧ m.is_locked = false) ∧
    (∀ r ∈ mergeScan p.low (gardenCandidates score nodes), ∀ q ∈ r,
      q.1.node_id ∈ (processEventGoal p score newId nodes).2.1) := by
  have hins : (processEventGoal p score newId nodes).1 =
      (mergeScan p.low (gardenCandidates score nodes)).enum.filterMap (fun ir =>
        match ir.2 with
        | [] => none
        | x :: xs => some (mkMergedNode (newId ir.1) x.1 (xs.map (·.1)))) := rfl
  have hdel : (processEventGoal p score newId nodes).2.1 =
      ((mergeScan p.low (gardenCandidates score nodes)).map
        (fun r => r.map (fun q => q.1.node_id))).flatten := rfl
  have hne : ∀ r ∈ mergeScan p.low (gardenCandidates score nodes), r ≠ [] :=
    fun r hr => (mergeScan_sound p.low _ r hr).1.1
  refine ⟨List.sorted_insertionSort tsLe _, ?_, ?_, ?_, ?_⟩
  · intro r
    exact ⟨fun hr => mergeScan_sound p.low _ r hr,
      fun ⟨hmax, h2⟩ => mergeScan_complete p.low _ r hmax h2⟩
  · rw [hins]
    rw [filterMap_length_of_all_some _ _ ?_, List.enum_length]
    intro ir hir
    have hmem : ir.2 ∈ mergeScan p.low (gardenCandidates score nodes) := by
      rcases ir with ⟨i, r⟩
      have h2 := List.mk_mem_enum_iff_getElem?.mp hir
      exact List.getElem?_mem h2
    rcases hr : ir.2 with _ | ⟨x, xs⟩
    · exact absurd hr (hne _ hmem)
    · simp
  · intro m hm
    rw [hins] at hm
    obtain ⟨ir, hir, hg⟩ := List.mem_filterMap.mp hm
    have hmem : ir.2 ∈ mergeScan p.low (gardenCandidates score nodes) := by
      rcases ir with ⟨i, r⟩
      have h2 := List.mk_mem_enum_iff_getElem?.mp hir
      exact List.getElem?_mem h2
    rcases hr : ir.2 with _ | ⟨x, xs⟩
    · exact absurd hr (hne _ hmem)
    · rw [hr] at hg hmem
      simp only [Option.some.injEq] at hg
      refine ⟨x :: xs, hmem, x, xs, rfl, ?_, ?_, ?_, ?_, ?_⟩ <;>
        (rw [← hg]; simp [mkMergedNode, List.map_map]; try rfl)
  · intro r hr q hq
    rw [hdel]
    rw [List.mem_flatten]
    exact ⟨r.map (fun q' => q'.1.node_id), List.mem_map_of_mem _ hr,
      List.mem_map_of_mem _ hq⟩

/-- Invariant of the best-candidate fold: the running best score never
decreases, ends at least as large as every candidate's score, and the
final state is either the start state or a visited candidate paired with
its own score. -/
theorem bestCandidate_fold_spec (sc : GNode → ℚ) :
    ∀ (l : List GNode) (acc : Option GNode × ℚ),
      acc.2 ≤ (l.foldl (fun a c => if a.2 < sc c then (some c, sc c) else a) acc).2 ∧
      (∀ x ∈ l, sc x ≤ (l.foldl (fun a c => if a.2 < sc c then (some c, sc c) else a) acc).2) ∧
      ((l.foldl (fun a c => if a.2 < sc c then (some c, sc c) else a) acc) = acc ∨
        ∃ c ∈ l, (l.foldl (fun a c => if a.2 < sc c then (some c, sc c) else a) acc) =
          (some c, sc c)) := by
  intro l
  induction l with
  | nil =>
    intro acc
    exact ⟨le_rfl, fun x hx => absurd hx (List.not_mem_nil x), Or.inl rfl⟩
  | cons b bs ih =>
    intro acc
    simp only [List.foldl_cons]
    obtain ⟨h1, h2, h3⟩ := ih (if acc.2 < sc b then (some b, sc b) else acc)
    have hstep : acc.2 ≤ (if acc.2 < sc b then ((some b : Option GNode), sc b) else acc).2 := by
      split_ifs with hc
      · exact le_of_lt hc
      · exact le_rfl
    have hstepb : sc b ≤ (if acc.2 < sc b then ((some b : Option GNode), sc b) else acc).2 := by
      split_ifs with hc
      · exact le_rfl
      · exact le_of_not_lt hc
    refine ⟨le_trans hstep h1, ?_, ?_⟩
    · intro x hx
      rw [List.mem_cons] at hx
      rcases hx with hx | hx
      · rw [hx]
        exact le_trans hstepb h1
      · exact h2 x hx
    · rcases h3 with h3 | h3
      · rw [h3]
        split_ifs with hc
        · exact Or.inr ⟨b, List.mem_cons_self _ _, rfl⟩
        · exact Or.inl rfl
      · obtain ⟨c, hc, hc2⟩ := h3
        exact Or.inr ⟨c, List.mem_cons_of_mem _ hc, hc2⟩

/-- C8 (amended): whenever `locate_error_source` returns a node, that
node is a retrieved candidate with a strictly positive suspicion score
that is maximal among all candidates (there is no first-candidate
fallback: a non-positive best score yields `None`, as does an empty
candidate list). -/
theorem locate_error_source_best (store : List GNode) (retrievedIds : List String)
    (original correction : String) (c : GNode)
    (h : locateErrorSource store retrievedIds original correction = some c) :
    c ∈ retrievedIds.filterMap (fun i => store.find? (fun n => n.node_id == i)) ∧
    0 < suspicionScore (keywordSet original) (keywordSet correction) c ∧
    ∀ c' ∈ retrievedIds.filterMap (fun i => store.find? (fun n => n.node_id == i)),
      suspicionScore (keywordSet original) (keywordSet correction) c' ≤
        suspicionScore (keywordSet original) (keywordSet correction) c := by
  unfold locateErrorSource at h
  by_cases hemp :
      (retrievedIds.filterMap (fun i => store.find? (fun n => n.node_id == i))).isEmpty
  · rw [if_pos hemp] at h
    exact absurd h (by simp)
  · rw [if_neg hemp] at h
    unfold semanticMatchError bestCandidate at h
    dsimp only at h
    obtain ⟨h1, h2, h3⟩ := bestCandidate_fold_spec
      (suspicionScore (keywordSet original) (keywordSet correction))
      (retrievedIds.filterMap (fun i => store.find? (fun n => n.node_id == i))) (none, -1)
    rcases h3 with h3 | h3
    · rw [h3] at h
      simp at h
    · obtain ⟨d, hd, hd2⟩ := h3
      rw [hd2] at h h2
      simp only at h
      by_cases hpos : 0 < suspicionScore (keywordSet original) (keywordSet correction) d
      · rw [if_pos hpos] at h
        injection h with h
        subst h
        exact ⟨hd, hpos, h2⟩
      · rw [if_neg hpos] at h
        exact absurd h (by simp)

/-- Unfolding equation for `mergeScan` on the empty list. -/
theorem mergeScan_nil (low : ℚ) : mergeScan low [] = [] := by
  rw [mergeScan]

/-! ### Concrete instances: counterexamples and witnesses -/

section ConcreteInstances

attribute [local semireducible] Rat.add Rat.mul Rat.inv Rat.sub Rat.ofScientific

/-- C1 counterexample: a level-3 node whose single child (which itself has
two children) is below the medium threshold. The code reports 2 deleted
nodes (1 + one direct child), while the node has 3 descendants, so the
claimed count `1 + all descendants = 4` is wrong. -/
theorem subtree_delete_count_counterexample :
    (mergeOrDeleteT (mkRat 2 5)
        (.node ⟨1, .goal, "g", some (mkRat 1 10), false, none, none, none, none, none, false⟩
          (.cons
            (.node ⟨2, .event, "e", some (mkRat 1 10), false, none, none, none, none, none,
                false⟩
              (.cons (.node ⟨3, .scene, "s1", some (mkRat 1 2), false, none, none, none, none,
                  none, false⟩ .nil)
                (.cons (.node ⟨4, .scene, "s2", some (mkRat 1 2), false, none, none, none, none,
                    none, false⟩ .nil) .nil)))
            .nil))).2.2 = 2 ∧
    (MTree.node (⟨1, .goal, "g", some (mkRat 1 10), false, none, none, none, none, none, false⟩ :
        NData)
      (.cons
        (.node ⟨2, .event, "e", some (mkRat 1 10), false, none, none, none, none, none, false⟩
          (.cons (.node ⟨3, .scene, "s1", some (mkRat 1 2), false, none, none, none, none, none,
              false⟩ .nil)
            (.cons (.node ⟨4, .scene, "s2", some (mkRat 1 2), false, none, none, none, none,
                none, false⟩ .nil) .nil)))
        .nil)).children.subtreeIds.length = 3 ∧
    ¬ (MTree.node (⟨1, .goal, "g", some (mkRat 1 10), false, none, none, none, none, none,
        false⟩ : NData)
      (.cons
        (.node ⟨2, .event, "e", some (mkRat 1 10), false, none, none, none, none, none, false⟩
          (.cons (.node ⟨3, .scene, "s1", some (mkRat 1 2), false, none, none, none, none, none,
              false⟩ .nil)
            (.cons (.node ⟨4, .scene, "s2", some (mkRat 1 2), false, none, none, none, none,
                none, false⟩ .nil) .nil)))
        .nil)).level ≤ 2 ∧
    (∀ k ∈ (MForest.cons
        (.node ⟨2, .event, "e", some (mkRat 1 10), false, none, none, none, none, none, false⟩
          (.cons (.node ⟨3, .scene, "s1", some (mkRat 1 2), false, none, none, none, none, none,
              false⟩ .nil)
            (.cons (.node ⟨4, .scene, "s2", some (mkRat 1 2), false, none, none, none, none,
                none, false⟩ .nil) .nil)))
        .nil).toList, childUtility k < mkRat 2 5) ∧
    (2 : ℕ) ≠ 1 + 3 := by
  refine ⟨by decide, by decide, by decide, by decide, by decide⟩

/-- C1 witness: the amended statement applied to the counterexample's
node. -/
theorem subtree_delete_witness :
    mergeOrDeleteT (mkRat 2 5)
        (.node ⟨1, .goal, "g", some (mkRat 1 10), false, none, none, none, none, none, false⟩
          (.cons
            (.node ⟨2, .event, "e", some (mkRat 1 10), false, none, none, none, none, none,
                false⟩
              (.cons (.node ⟨3, .scene, "s1", some (mkRat 1 2), false, none, none, none, none,
                  none, false⟩ .nil)
                (.cons (.node ⟨4, .scene, "s2", some (mkRat 1 2), false, none, none, none, none,
                    none, false⟩ .nil) .nil)))
            .nil)) =
      ((deleteSubtreeT
          (.node ⟨1, .goal, "g", some (mkRat 1 10), false, none, none, none, none, none, false⟩
            (.cons
              (.node ⟨2, .event, "e", some (mkRat 1 10), false, none, none, none, none, none,
                  false⟩
                (.cons (.node ⟨3, .scene, "s1", some (mkRat 1 2), false, none, none, none, none,
                    none, false⟩ .nil)
                  (.cons (.node ⟨4, .scene, "s2", some (mkRat 1 2), false, none, none, none,
                      none, none, false⟩ .nil) .nil)))
              .nil))).1,
        (deleteSubtreeT
          (.node ⟨1, .goal, "g", some (mkRat 1 10), false, none, none, none, none, none, false⟩
            (.cons
              (.node ⟨2, .event, "e", some (mkRat 1 10), false, none, none, none, none, none,
                  false⟩
                (.cons (.node ⟨3, .scene, "s1", some (mkRat 1 2), false, none, none, none, none,
                    none, false⟩ .nil)
                  (.cons (.node ⟨4, .scene, "s2", some (mkRat 1 2), false, none, none, none,
                      none, none, false⟩ .nil) .nil)))
              .nil))).2,
        1 + (MForest.cons
          (.node ⟨2, .event, "e", some (mkRat 1 10), false, none, none, none, none, none, false⟩
            (.cons (.node ⟨3, .scene, "s1", some (mkRat 1 2), false, none, none, none, none,
                none, false⟩ .nil)
              (.cons (.node ⟨4, .scene, "s2", some (mkRat 1 2), false, none, none, none, none,
                  none, false⟩ .nil) .nil)))
          .nil).toList.length) :=
  (all_low_children_delete_subtree (mkRat 2 5) _ _ _ (by decide) (by decide)).1


/-- C2 failing input: `ForgettingAgent._forgetting_cycle` has no
`is_locked` check. A locked scene node with a raw image and a low computed
utility has its stored utility overwritten and its payload stripped by the
loop body, while the gardener's corresponding loop
(`_process_raw_and_scene_level`) leaves the very same locked record
untouched. -/
theorem locked_node_mutated_by_forgetting_cycle :
    (⟨7, .scene, "cup on table", some (mkRat 1 2), true, some ⟨true, false, false⟩,
        some ["cup"], some [], none, none, false⟩ : NData).is_locked = true ∧
    (forgettingStep defaultThresholds (fun _ => mkRat 1 10)
        (.node ⟨7, .scene, "cup on table", some (mkRat 1 2), true, some ⟨true, false, false⟩,
          some ["cup"], some [], none, none, false⟩ .nil)).1 =
      .node ⟨7, .scene, "cup on table", some (mkRat 1 10), true, some ⟨false, false, true⟩,
        some [], some [], none, none, false⟩ .nil ∧
    (forgettingStep defaultThresholds (fun _ => mkRat 1 10)
        (.node ⟨7, .scene, "cup on table", some (mkRat 1 2), true, some ⟨true, false, false⟩,
          some ["cup"], some [], none, none, false⟩ .nil)).1 ≠
      .node ⟨7, .scene, "cup on table", some (mkRat 1 2), true, some ⟨true, false, false⟩,
        some ["cup"], some [], none, none, false⟩ .nil ∧
    gardenerStepOnData defaultThresholds (fun _ => mkRat 1 10)
        ⟨7, .scene, "cup on table", some (mkRat 1 2), true, some ⟨true, false, false⟩,
          some ["cup"], some [], none, none, false⟩ =
      ⟨7, .scene, "cup on table", some (mkRat 1 2), true, some ⟨true, false, false⟩,
        some ["cup"], some [], none, none, false⟩ := by
  refine ⟨rfl, by decide, by decide, by decide⟩

/-- C3 failing input: `ForgettingPolicy.apply` never returns the
`forget_raw` action the gardener's L0/L1 loop dispatches on, so a
non-locked node whose action is `text_only` keeps its raw payload —
only its stored utility changes. -/
theorem gardener_never_strips_payload :
    (∀ (p : PolicyThresholds) (u : ℚ), policyApply p u ≠ FAction.forget_raw) ∧
    policyApply defaultThresholds (mkRat 3 10) = FAction.text_only ∧
    (processRawScene defaultThresholds (fun _ => mkRat 3 10)
        [⟨"x", "L0", "walk down the hall", 0, 1, mkRat 1 2, false, some true, []⟩]).1 =
      [⟨"x", "L0", "walk down the hall", 0, 1, mkRat 3 10, false, some true, []⟩] := by
  refine ⟨?_, by decide, by decide⟩
  intro p u
  unfold policyApply
  split_ifs <;> intro hcon <;> cases hcon

/-- C5 witness: the monotonicity theorem applied at the default thresholds
with utilities 0.1 ≤ 0.7, plus the default mapping at 0.3. -/
theorem policy_monotone_witness :
    destructiveness (policyApply defaultThresholds (mkRat 7 10)) ≤
      destructiveness (policyApply defaultThresholds (mkRat 1 10)) ∧
    policyApply defaultThresholds (mkRat 3 10) =
      specDecide defaultThresholds (mkRat 3 10) :=
  ⟨(policy_monotone_and_default_mapping defaultThresholds (mkRat 1 10) (mkRat 7 10)
      (by decide)).1,
   (policy_monotone_and_default_mapping defaultThresholds (mkRat 1 10) (mkRat 7 10)
      (by decide)).2 (mkRat 3 10)⟩

/-- C6 witness: on the four-node chain root(1) → 2 → 3 → 4 the walk
returns exactly [3, 2, 1] — the ancestors of node 4, nearest first. -/
theorem propagate_update_witness :
    (findUpd 4
        (.node ⟨1, .higher, "r", some (mkRat 1 2), false, none, none, none, none, none, false⟩
          (.cons
            (.node ⟨2, .goal, "a", some (mkRat 1 2), false, none, none, none, none, none, false⟩
              (.cons
                (.node ⟨3, .event, "b", some (mkRat 1 2), false, none, none, none, none, none,
                    false⟩
                  (.cons (.node ⟨4, .scene, "t", some (mkRat 1 2), false, none, none, none,
                      none, none, false⟩ .nil) .nil))
                .nil))
            .nil))).2 = [3, 2, 1] ∧
    ([3, 2, 1] : List ℕ).Nodup :=
  propagate_update_returns_ancestors _ 4 [3, 2, 1] (by decide) (by decide)


/-- C7 counterexample: with the default maximum history length 10, a node
whose history is already full gains no length from a new correction — the
history stays at 10, not 10 + 1 — though the newest record still carries
the correction text. -/
theorem correction_history_full_counterexample :
    ((correctMemoryApply 10
        ⟨9, .event, "old summary", some (mkRat 1 2), false, none, none, none, none,
          some (List.replicate 10 ⟨"earlier", none, none, none⟩), false⟩
        "new summary" "C").correction_history.getD []).length = 10 ∧
    (List.replicate 10 (⟨"earlier", none, none, none⟩ : CRec)).length = 10 ∧
    (10 : ℕ) ≠ 10 + 1 ∧
    ((correctMemoryApply 10
        ⟨9, .event, "old summary", some (mkRat 1 2), false, none, none, none, none,
          some (List.replicate 10 ⟨"earlier", none, none, none⟩), false⟩
        "new summary" "C").correction_history.getD []).getLast? =
      some ⟨"C", some "old summary", some "new summary", none⟩ := by
  refine ⟨by decide, by decide, by decide, by decide⟩

/-- C7 witness: the amended statement applied to a node with an empty
history and the default maximum of 10. -/
theorem correction_history_witness :
    ((correctMemoryApply 10
        ⟨9, .event, "old summary", some (mkRat 1 2), false, none, none, none, none, none,
          false⟩ "new summary" "C").correction_history.getD []).length =
      min (((⟨9, .event, "old summary", some (mkRat 1 2), false, none, none, none, none, none,
          false⟩ : NData)).correction_history.getD []).length.succ 10 ∧
    ((correctMemoryApply 10
        ⟨9, .event, "old summary", some (mkRat 1 2), false, none, none, none, none, none,
          false⟩ "new summary" "C").correction_history.getD []).getLast? =
      some ⟨"C", some "old summary", some "new summary", none⟩ :=
  ⟨(correction_history_append 10 _ "new summary" "C" (by decide)).1,
   (correction_history_append 10 _ "new summary" "C" (by decide)).2.1⟩

/-- C8 counterexample: a single retrieved candidate whose summary overlaps
only the user correction gets a negative suspicion score, and
`locate_error_source` returns `None` — not the first candidate the claim's
fallback demands — even though the candidate list is nonempty. -/
theorem locate_no_fallback_counterexample :
    locateErrorSource
        [⟨"a", "L1", "green pear basket", 0, 1, 0, false, some true, []⟩]
        ["a"] "red apple" "green pear" = none ∧
    (["a"].filterMap (fun i =>
        [(⟨"a", "L1", "green pear basket", 0, 1, 0, false, some true, []⟩ : GNode)].find?
          (fun n => n.node_id == i))) =
      [⟨"a", "L1", "green pear basket", 0, 1, 0, false, some true, []⟩] := by
  refine ⟨by decide, by decide⟩

/-- C8 witness: the scenario of the claim — candidate A overlaps the user
correction, candidate B overlaps the wrong original answer —
`locate_error_source` returns B, and the amended theorem certifies B as a
maximal positively-scored candidate. -/
theorem locate_error_source_witness :
    (⟨"b", "L1", "a red apple on table", 2, 3, 0, false, some true, []⟩ : GNode) ∈
      (["a", "b"].filterMap (fun i =>
        [(⟨"a", "L1", "something green here", 0, 1, 0, false, some true, []⟩ : GNode),
         (⟨"b", "L1", "a red apple on table", 2, 3, 0, false, some true, []⟩ : GNode)].find?
          (fun n => n.node_id == i))) ∧
    0 < suspicionScore (keywordSet "the apple is red") (keywordSet "the apple is green")
        ⟨"b", "L1", "a red apple on table", 2, 3, 0, false, some true, []⟩ ∧
    ∀ c' ∈ (["a", "b"].filterMap (fun i =>
        [(⟨"a", "L1", "something green here", 0, 1, 0, false, some true, []⟩ : GNode),
         (⟨"b", "L1", "a red apple on table", 2, 3, 0, false, some true, []⟩ : GNode)].find?
          (fun n => n.node_id == i))),
      suspicionScore (keywordSet "the apple is red") (keywordSet "the apple is green") c' ≤
        suspicionScore (keywordSet "the apple is red") (keywordSet "the apple is green")
          ⟨"b", "L1", "a red apple on table", 2, 3, 0, false, some true, []⟩ :=
  locate_error_source_best
    [⟨"a", "L1", "something green here", 0, 1, 0, false, some true, []⟩,
     ⟨"b", "L1", "a red apple on table", 2, 3, 0, false, some true, []⟩]
    ["a", "b"] "the apple is red" "the apple is green"
    ⟨"b", "L1", "a red apple on table", 2, 3, 0, false, some true, []⟩ (by decide)

/-- C9 counterexample: "grasp the cup" carries no anomaly or completion
keyword, yet the routine-action bucket scores it 0.5; with density 1
(inside [0, 1]) the utility is exactly 0.4 — not strictly below — and the
default action is `downgrade`, outside {text_only, merge_or_delete}. -/
theorem routine_keyword_utility_counterexample :
    (highKeywords.any (fun kw => strContainsSub "grasp the cup" kw)) = false ∧
    (mediumHighKeywords.any (fun kw => strContainsSub "grasp the cup" kw)) = false ∧
    ((0 : ℚ) ≤ 1 ∧ (1 : ℚ) ≤ 1) ∧
    scorerCompute defaultWeights (fun _ => 0) 0 0 none "grasp the cup" 1 = mkRat 2 5 ∧
    ¬ scorerCompute defaultWeights (fun _ => 0) 0 0 none "grasp the cup" 1 < mkRat 2 5 ∧
    policyApply defaultThresholds
        (scorerCompute defaultWeights (fun _ => 0) 0 0 none "grasp the cup" 1) =
      FAction.downgrade := by
  refine ⟨by decide, by decide, ⟨by decide, by decide⟩, by decide, by decide, by decide⟩

/-- C9 witness: the amended statement applied to the keyword-free summary
"idle" with density 1/2. -/
theorem cold_plain_node_witness :
    scorerCompute defaultWeights (fun _ => 0) 0 0 none "idle" (mkRat 1 2) < 2 / 5 ∧
    policyApply defaultThresholds
        (scorerCompute defaultWeights (fun _ => 0) 0 0 none "idle" (mkRat 1 2)) ≠
      FAction.keep_all :=
  ⟨(cold_plain_node_never_kept (fun _ => 0) 0 "idle" (mkRat 1 2) (by decide) (by decide)
      (by decide) (by decide) (by decide)).1,
   (cold_plain_node_never_kept (fun _ => 0) 0 "idle" (mkRat 1 2) (by decide) (by decide)
      (by decide) (by decide) (by decide)).2.2⟩


/-- C4 counterexample: a maximal run of four below-`low` candidates is
merged into one node whose summary is the fixed count phrase
"合并了4个相关事件" — neither collaborator-generated nor the
pipe-concatenation of the run's summaries the claimed fallback
prescribes (it does not even mention them). -/
theorem consolidation_summary_counterexample :
    (processEventGoal defaultThresholds (fun n => n.utility_score) (fun _ => "m")
        [⟨"a", "L2", "wa", 0, 1, 0, false, some true, []⟩,
         ⟨"b", "L2", "wb", 2, 3, 0, false, some true, []⟩,
         ⟨"c", "L2", "wc", 4, 5, 0, false, some true, []⟩,
         ⟨"d", "L2", "wd", 6, 7, 0, false, some true, []⟩]).1.map
      (fun m => m.nl_summary) = ["合并了4个相关事件"] ∧
    (processEventGoal defaultThresholds (fun n => n.utility_score) (fun _ => "m")
        [⟨"a", "L2", "wa", 0, 1, 0, false, some true, []⟩,
         ⟨"b", "L2", "wb", 2, 3, 0, false, some true, []⟩,
         ⟨"c", "L2", "wc", 4, 5, 0, false, some true, []⟩,
         ⟨"d", "L2", "wd", 6, 7, 0, false, some true, []⟩]).1.map
      (fun m => m.merged_from) = [["a", "b", "c", "d"]] ∧
    (processEventGoal defaultThresholds (fun n => n.utility_score) (fun _ => "m")
        [⟨"a", "L2", "wa", 0, 1, 0, false, some true, []⟩,
         ⟨"b", "L2", "wb", 2, 3, 0, false, some true, []⟩,
         ⟨"c", "L2", "wc", 4, 5, 0, false, some true, []⟩,
         ⟨"d", "L2", "wd", 6, 7, 0, false, some true, []⟩]).2.1 =
      ["a", "b", "c", "d"] ∧
    "合并了4个相关事件" ≠ String.intercalate " | " ["wa", "wb", "wc", "wd"] ∧
    (∀ w ∈ ["wa", "wb", "wc", "wd"], strContainsSub "合并了4个相关事件" w = false) := by
  have hg : gardenCandidates (fun n => n.utility_score)
      [⟨"a", "L2", "wa", 0, 1, 0, false, some true, []⟩,
       ⟨"b", "L2", "wb", 2, 3, 0, false, some true, []⟩,
       ⟨"c", "L2", "wc", 4, 5, 0, false, some true, []⟩,
       ⟨"d", "L2", "wd", 6, 7, 0, false, some true, []⟩] =
      [(⟨"a", "L2", "wa", 0, 1, 0, false, some true, []⟩, 0),
       (⟨"b", "L2", "wb", 2, 3, 0, false, some true, []⟩, 0),
       (⟨"c", "L2", "wc", 4, 5, 0, false, some true, []⟩, 0),
       (⟨"d", "L2", "wd", 6, 7, 0, false, some true, []⟩, 0)] := by decide
  have hms : mergeScan defaultThresholds.low
      [(⟨"a", "L2", "wa", 0, 1, 0, false, some true, []⟩, 0),
       (⟨"b", "L2", "wb", 2, 3, 0, false, some true, []⟩, 0),
       (⟨"c", "L2", "wc", 4, 5, 0, false, some true, []⟩, 0),
       (⟨"d", "L2", "wd", 6, 7, 0, false, some true, []⟩, 0)] =
      [[(⟨"a", "L2", "wa", 0, 1, 0, false, some true, []⟩, 0),
        (⟨"b", "L2", "wb", 2, 3, 0, false, some true, []⟩, 0),
        (⟨"c", "L2", "wc", 4, 5, 0, false, some true, []⟩, 0),
        (⟨"d", "L2", "wd", 6, 7, 0, false, some true, []⟩, 0)]] := by
    have ht : List.takeWhile (fun y => decide (y.2 < defaultThresholds.low))
        ([(⟨"b", "L2", "wb", 2, 3, 0, false, some true, []⟩, 0),
          (⟨"c", "L2", "wc", 4, 5, 0, false, some true, []⟩, 0),
          (⟨"d", "L2", "wd", 6, 7, 0, false, some true, []⟩, 0)] : List (GNode × ℚ)) =
        [(⟨"b", "L2", "wb", 2, 3, 0, false, some true, []⟩, 0),
         (⟨"c", "L2", "wc", 4, 5, 0, false, some true, []⟩, 0),
         (⟨"d", "L2", "wd", 6, 7, 0, false, some true, []⟩, 0)] := by decide
    have hd : List.dropWhile (fun y => decide (y.2 < defaultThresholds.low))
        ([(⟨"b", "L2", "wb", 2, 3, 0, false, some true, []⟩, 0),
          (⟨"c", "L2", "wc", 4, 5, 0, false, some true, []⟩, 0),
          (⟨"d", "L2", "wd", 6, 7, 0, false, some true, []⟩, 0)] : List (GNode × ℚ)) = [] := by
      decide
    rw [mergeScan_cons]
    rw [if_pos (show ((⟨"a", "L2", "wa", 0, 1, 0, false, some true, []⟩ : GNode),
      (0 : ℚ)).2 < defaultThresholds.low by decide)]
    rw [ht, hd, mergeScan_nil]
    rw [if_pos (by decide)]
    rfl
  have h1 : (processEventGoal defaultThresholds (fun n => n.utility_score) (fun _ => "m")
      [⟨"a", "L2", "wa", 0, 1, 0, false, some true, []⟩,
       ⟨"b", "L2", "wb", 2, 3, 0, false, some true, []⟩,
       ⟨"c", "L2", "wc", 4, 5, 0, false, some true, []⟩,
       ⟨"d", "L2", "wd", 6, 7, 0, false, some true, []⟩]).1 =
      (mergeScan defaultThresholds.low (gardenCandidates (fun n => n.utility_score)
        [⟨"a", "L2", "wa", 0, 1, 0, false, some true, []⟩,
         ⟨"b", "L2", "wb", 2, 3, 0, false, some true, []⟩,
         ⟨"c", "L2", "wc", 4, 5, 0, false, some true, []⟩,
         ⟨"d", "L2", "wd", 6, 7, 0, false, some true, []⟩])).enum.filterMap (fun ir =>
          match ir.2 with
          | [] => none
          | x :: xs => some (mkMergedNode ((fun _ => "m") ir.1) x.1 (xs.map (·.1)))) := rfl
  have h2 : (processEventGoal defaultThresholds (fun n => n.utility_score) (fun _ => "m")
      [⟨"a", "L2", "wa", 0, 1, 0, false, some true, []⟩,
       ⟨"b", "L2", "wb", 2, 3, 0, false, some true, []⟩,
       ⟨"c", "L2", "wc", 4, 5, 0, false, some true, []⟩,
       ⟨"d", "L2", "wd", 6, 7, 0, false, some true, []⟩]).2.1 =
      ((mergeScan defaultThresholds.low (gardenCandidates (fun n => n.utility_score)
        [⟨"a", "L2", "wa", 0, 1, 0, false, some true, []⟩,
         ⟨"b", "L2", "wb", 2, 3, 0, false, some true, []⟩,
         ⟨"c", "L2", "wc", 4, 5, 0, false, some true, []⟩,
         ⟨"d", "L2", "wd", 6, 7, 0, false, some true, []⟩])).map
          (fun r => r.map (fun q => q.1.node_id))).flatten := rfl
  refine ⟨?_, ?_, ?_, by decide, by decide⟩
  · rw [h1, hg, hms]
    decide
  · rw [h1, hg, hms]
    decide
  · rw [h2, hg, hms]
    decide


/-- C4 witness: the consolidation theorem applied at the counterexample's
four-candidate input; its sortedness component at that input. -/
theorem event_goal_consolidation_witness :
    List.Sorted tsLe (gardenCandidates (fun n => n.utility_score)
      [⟨"a", "L2", "wa", 0, 1, 0, false, some true, []⟩,
       ⟨"b", "L2", "wb", 2, 3, 0, false, some true, []⟩,
       ⟨"c", "L2", "wc", 4, 5, 0, false, some true, []⟩,
       ⟨"d", "L2", "wd", 6, 7, 0, false, some true, []⟩]) :=
  (event_goal_consolidation defaultThresholds (fun n => n.utility_score) (fun _ => "m")
    [⟨"a", "L2", "wa", 0, 1, 0, false, some true, []⟩,
     ⟨"b", "L2", "wb", 2, 3, 0, false, some true, []⟩,
     ⟨"c", "L2", "wc", 4, 5, 0, false, some true, []⟩,
     ⟨"d", "L2", "wd", 6, 7, 0, false, some true, []⟩]).1

end ConcreteInstances
